import Mathlib

/-!
# Verification of akvorado's `SubnetMap` (common/helpers/subnetmap.go)

A shallow embedding of the subnet-keyed lookup table of the repository:

* `SubnetMap[V]` — a table mapping subnets to values, stored uniformly as
  IPv4-mapped IPv6 prefixes in a 128-bit patricia trie, with longest-prefix
  `Lookup`;
* `SubnetMapUnmarshallerHook` — the mapstructure decode hook that validates
  and normalizes CIDR string keys (IPv4 keys become `::ffff:a.b.c.d/(n+96)`)
  and builds the trie;
* `MarshalYAML` — the canonical mapping emitted for re-serialization.

The Go code leans on the standard `net` package (`ParseCIDR`, `ParseIP`,
`IP.String`, `IPNet.String`, `CIDRMask`, `IPMask.Size`, `IP.Mask`, `IP.To4`,
`IP.To16`); those platform functions are embedded here byte-for-byte from
their Go sources, over `List Nat` byte lists (each byte `< 256`), exactly as
Go represents a `net.IP`.  The third-party kentik/patricia trie is not part
of the repository sources; it is modelled behind the contract the spec gives
for it (a longest-prefix store keyed by the first `Length` bits of a 128-bit
address) as an association list of masked prefixes.

All definitions are fuel-free structural recursion or use an explicit fuel
argument bounded by the input (so every definition evaluates by kernel
reduction, and concrete claims are settled with `decide`/`rfl`).
-/

namespace Akvorado

/-- Go `net.IP`: a byte slice, each byte `< 256`; length 4 or 16 for real
addresses. -/
abbrev GoIP := List Nat

/-- Go `net`'s `v4InV6Prefix`: the 12 leading bytes of an IPv4-mapped IPv6
address (`::ffff:0:0/96`). -/
def v4InV6Pre : List Nat := [0, 0, 0, 0, 0, 0, 0, 0, 0, 0, 255, 255]

/-! ## Characters and digits -/

/-- Decimal digit test, as Go's `'0' <= c && c <= '9'`. -/
def isDigitCh (c : Char) : Bool := decide ('0' ≤ c) && decide (c ≤ '9')

/-- Hex digit value, as the inlined hex parse of Go `net/netip.parseIPv6`
(`0-9`, `a-f`, `A-F`). -/
def hexVal (c : Char) : Option Nat :=
  if decide ('0' ≤ c) && decide (c ≤ '9') then some (c.toNat - 48)
  else if decide ('a' ≤ c) && decide (c ≤ 'f') then some (c.toNat - 87)
  else if decide ('A' ≤ c) && decide (c ≤ 'F') then some (c.toNat - 55)
  else none

/-- The character of a decimal digit. -/
def digitCh (d : Nat) : Char := Char.ofNat (48 + d)

/-- The character of a hex digit, lowercase, as Go's `appendHex`. -/
def hexCh (d : Nat) : Char := if d < 10 then Char.ofNat (48 + d) else Char.ofNat (87 + d)

/-- Little-endian base-`b` digits of `n`, with explicit fuel (`fuel ≥ n`
suffices for `b ≥ 2`). -/
def digitsLE (b : Nat) : Nat → Nat → List Nat
  | 0, _ => []
  | fuel + 1, n => if n = 0 then [] else n % b :: digitsLE b fuel (n / b)

/-- Decimal print of `n`, as Go's `uitoa`. -/
def decChars (n : Nat) : List Char :=
  if n = 0 then ['0'] else ((digitsLE 10 n n).reverse).map digitCh

/-- Minimal lowercase hex print of `n`, as Go's `appendHex`. -/
def hexChars (n : Nat) : List Char :=
  if n = 0 then ['0'] else ((digitsLE 16 n n).reverse).map hexCh

/-! ## Go `net.dtoi` -/

/-- Go `net`'s `big` constant: decimal parses saturate at `0xFFFFFF`. -/
def dtoiBig : Nat := 0xFFFFFF

/-- The loop of Go `net.dtoi`: accumulate decimal digits, fail when the
accumulator reaches `big`; returns `(value, digitsConsumed, ok)`. -/
def dtoiLoop : List Char → Nat → Nat → Nat × Nat × Bool
  | [], acc, i => (acc, i, true)
  | c :: rest, acc, i =>
    if isDigitCh c then
      if acc * 10 + (c.toNat - 48) ≥ dtoiBig then (dtoiBig, i, false)
      else dtoiLoop rest (acc * 10 + (c.toNat - 48)) (i + 1)
    else (acc, i, true)

/-- Go `net.dtoi`: decimal parse of a leading run of digits. -/
def dtoi (s : List Char) : Nat × Nat × Bool :=
  match dtoiLoop s 0 0 with
  | (n, i, ok) =>
    if ok then (if i = 0 then (0, 0, false) else (n, i, true)) else (n, i, false)

/-! ## Go `net.parseIPv4` -/

/-- One dotted-quad field, as in Go `net.parseIPv4`: a `dtoi` run that must
be `≤ 255` and must not have a leading zero (`c > 1 && s[0] == '0'` is
rejected).  Returns the field value and the unconsumed rest. -/
def v4FieldOk (s : List Char) : Option (Nat × List Char) :=
  match dtoi s with
  | (n, c, ok) =>
    if ok && decide (n ≤ 255) && !(decide (c > 1) && decide (s.head? = some '0')) then
      some (n, s.drop c)
    else none

/-- The three remaining `.field` steps of Go `net.parseIPv4`, plus the final
"entire string consumed" check. -/
def v4Rest : Nat → List Char → List Nat → Option (List Nat)
  | 0, s, acc => if s = [] then some acc.reverse else none
  | k + 1, s, acc =>
    match s with
    | [] => none
    | c :: s' =>
      if c = '.' then
        match v4FieldOk s' with
        | some (n, s2) => v4Rest k s2 (n :: acc)
        | none => none
      else none

/-- Go `net.parseIPv4`: parse `a.b.c.d` (no leading zeros, each field
`≤ 255`), returning the 16-byte IPv4-mapped form `::ffff:a.b.c.d`, exactly
as Go's `IPv4(a,b,c,d)` does. -/
def parseV4Go (s : List Char) : Option GoIP :=
  match v4FieldOk s with
  | some (n, s1) =>
    match v4Rest 3 s1 [n] with
    | some fields => some (v4InV6Pre ++ fields)
    | none => none
  | none => none

/-! ## Go IPv6 parsing (`net/netip.parseIPv6`, used by `net.ParseCIDR` /
`net.ParseIP` for colon-containing addresses) -/

/-- The inlined hex-group grab of Go's IPv6 parse: consume hex digits into an
accumulator; a fifth hex digit is an error (`off > 3`).  Returns
`(value, digitsConsumed, rest)`. -/
def grabHex : List Char → Nat → Nat → Option (Nat × Nat × List Char)
  | [], acc, off => some (acc, off, [])
  | c :: rest, acc, off =>
    match hexVal c with
    | some v => if off ≥ 4 then none else grabHex rest (acc * 16 + v) (off + 1)
    | none => some (acc, off, c :: rest)

/-- The main loop of Go's IPv6 parse, collecting bytes.  State: remaining
characters, byte count `i`, ellipsis position (byte index of a seen `::`),
bytes accumulated so far.  The fuel only bounds iterations; each iteration
raises `i` by at least 2 and the loop runs while `i < 16`, so fuel 8 is
exact (as in Go, where the loop structure itself enforces this bound).
Returns `(bytes, ellipsis, i, leftover)`. -/
def loopCollect : Nat → List Char → Nat → Option Nat → List Nat →
    Option (List Nat × Option Nat × Nat × List Char)
  | 0, s, i, ell, acc => some (acc, ell, i, s)
  | fuel + 1, s, i, ell, acc =>
    if i ≥ 16 then some (acc, ell, i, s)
    else
      match grabHex s 0 0 with
      | none => none
      | some (g, off, rest) =>
        if off = 0 then none
        else if rest.head? = some '.' then
          -- trailing embedded IPv4, parsed from the full current remainder
          if (ell = none && decide (i ≠ 12)) || decide (i + 4 > 16) then none
          else
            match parseV4Go s with
            | none => none
            | some ip16 => some (acc ++ ip16.drop 12, ell, i + 4, [])
        else
          match rest with
          | [] => some (acc ++ [g / 256, g % 256], ell, i + 2, [])
          | c :: rest2 =>
            if c = ':' then
              match rest2 with
              | [] => none
              | c2 :: rest3 =>
                if c2 = ':' then
                  if ell ≠ none then none
                  else
                    match rest3 with
                    | [] => some (acc ++ [g / 256, g % 256], some (i + 2), i + 2, [])
                    | _ :: _ =>
                      loopCollect fuel rest3 (i + 2) (some (i + 2))
                        (acc ++ [g / 256, g % 256])
                else loopCollect fuel rest2 (i + 2) ell (acc ++ [g / 256, g % 256])
            else none

/-- The post-loop phase of Go's IPv6 parse: reject leftover characters,
expand the ellipsis with zero bytes (the shift loops of the Go code insert
`16 - i` zero bytes at the ellipsis position), reject a missing or useless
ellipsis. -/
def finishV6 : List Nat × Option Nat × Nat × List Char → Option (List Nat)
  | (acc, ell, i, leftover) =>
    if leftover ≠ [] then none
    else if i < 16 then
      match ell with
      | none => none
      | some e => some (acc.take e ++ List.replicate (16 - i) 0 ++ acc.drop e)
    else
      match ell with
      | some _ => none
      | none => some acc

/-- Go `net/netip.parseIPv6` (zone split, optional leading `::`, main loop,
expansion).  A `%` zone must be non-empty; the address is the part before it. -/
def parseV6Go (s0 : List Char) : Option GoIP :=
  let s := s0.takeWhile (fun c => c ≠ '%')
  if s.length ≠ s0.length && decide (s.length + 1 = s0.length) then none
  else if s.take 2 = [':', ':'] then
    (if s.drop 2 = [] then some (List.replicate 16 0)
     else
       match loopCollect 8 (s.drop 2) 0 (some 0) [] with
       | some st => finishV6 st
       | none => none)
  else
    match loopCollect 8 s 0 none [] with
    | some st => finishV6 st
    | none => none

/-! ## Go mask and byte-slice operations -/

/-- Go `net.CIDRMask(ones, bits)`: a `bits/8`-byte mask with `ones` leading
one bits.  Only `bits ∈ {32, 128}` and `ones ≤ bits` give a real mask
(otherwise Go returns nil, here `[]`). -/
def goCIDRMask (ones bits : Nat) : List Nat :=
  if (bits ≠ 32 && bits ≠ 128) || decide (ones > bits) then []
  else cidrMaskLoop (bits / 8) ones
where
  cidrMaskLoop : Nat → Nat → List Nat
    | 0, _ => []
    | l + 1, n =>
      if n ≥ 8 then 255 :: cidrMaskLoop l (n - 8)
      else (255 - (255 / 2 ^ n)) :: cidrMaskLoop l 0

/-- Go `net.simpleMaskLength`: number of leading one bits of a canonical
(ones-then-zeros) mask, `none` for a non-canonical mask. -/
def simpleMaskLen (m : List Nat) : Option Nat :=
  match m with
  | [] => some 0
  | 255 :: rest =>
    match simpleMaskLen rest with
    | some n => some (n + 8)
    | none => none
  | v :: rest =>
    if rest.all (fun b => b = 0) then
      match partOnes v 8 with
      | some k => some k
      | none => none
    else none
where
  /-- Count the leading one bits of a byte, requiring the remainder zero. -/
  partOnes : Nat → Nat → Option Nat
    | v, 0 => if v = 0 then some 0 else none
    | v, k + 1 =>
      if v / 128 = 1 then
        match partOnes (v % 128 * 2) k with
        | some n => some (n + 1)
        | none => none
      else if v = 0 then some 0 else none

/-- Go `net.IPMask.Size`: `(ones, totalBits)` for a canonical mask, `(0,0)`
otherwise. -/
def maskSize (m : List Nat) : Nat × Nat :=
  match simpleMaskLen m with
  | some n => (n, m.length * 8)
  | none => (0, 0)

/-- Go `net.IP.To4`. -/
def goTo4 (ip : GoIP) : Option GoIP :=
  if ip.length = 4 then some ip
  else if ip.length = 16 && decide (ip.take 12 = v4InV6Pre) then some (ip.drop 12)
  else none

/-- Go `net.IP.To16`. -/
def goTo16 (ip : GoIP) : Option GoIP :=
  if ip.length = 4 then some (v4InV6Pre ++ ip)
  else if ip.length = 16 then some ip
  else none

/-- Bytewise AND of two equal-length byte lists. -/
def maskBytes (ip m : List Nat) : List Nat := List.zipWith (fun a b => a &&& b) ip m

/-- Go `net.IP.Mask`: adapt a 16-byte mask to a 4-byte IP (drop the 12
leading `0xff` bytes) or a 16-byte mapped IP to a 4-byte mask (drop the
mapped prefix), then AND bytewise; `none` (Go nil) on length mismatch. -/
def goMaskIP (ip m : GoIP) : Option GoIP :=
  let m' := if m.length = 16 && ip.length = 4 && decide (m.take 12 = List.replicate 12 255)
            then m.drop 12 else m
  let ip' := if m'.length = 4 && ip.length = 16 && decide (ip.take 12 = v4InV6Pre)
             then ip.drop 12 else ip
  if ip'.length = m'.length then some (maskBytes ip' m') else none

/-! ## Go textual printing (`net.IP.String`, `net.IPNet.String`) -/

/-- Dotted-decimal print of a 4-byte list, as the IPv4 arm of
`net.IP.String` (`uitoa` fields joined by dots). -/
def dottedChars (bs : List Nat) : List Char :=
  (bs.map decChars).intersperse ['.'] |>.flatten

/-- The 8 16-bit groups of a 16-byte address. -/
def groups16 (bs : List Nat) : List Nat :=
  match bs with
  | a :: b :: rest => (a * 256 + b) :: groups16 rest
  | _ => []

/-- Length of the zero-group run starting at the head. -/
def zeroRunLen : List Nat → Nat
  | 0 :: rest => zeroRunLen rest + 1
  | _ => 0

/-- Leftmost strictly-longest zero-group run of `gs`, as the `e0`/`e1` scan
of Go `net.IP.String` (group-index granularity; runs of length ≤ 1 are not
compressed).  Returns `(start, length)` or `none`. -/
def bestZeroRun (gs : List Nat) : Option (Nat × Nat) :=
  let best := scan gs 0 (0, 0)
  if best.2 ≥ 2 then some best else none
where
  scan : List Nat → Nat → Nat × Nat → Nat × Nat
    | [], _, best => best
    | g :: rest, idx, best =>
      let r := zeroRunLen (g :: rest)
      scan rest (idx + 1) (if r > best.2 then (idx, r) else best)

/-- RFC 5952 print of 8 groups with the chosen compressed run, exactly as the
emit loop of Go `net.IP.String`. -/
def ip6StringOfGroups (gs : List Nat) : List Char :=
  match bestZeroRun gs with
  | none => ((gs.map hexChars).intersperse [':']).flatten
  | some (e0, len) =>
    (((gs.take e0).map hexChars).intersperse [':']).flatten
      ++ [':', ':']
      ++ (((gs.drop (e0 + len)).map hexChars).intersperse [':']).flatten

/-- Go `net.IP.String` (nil, IPv4/IPv4-mapped dotted form, IPv6 form; other
lengths print `?` plus hex, never reached here). -/
def goIPString (ip : GoIP) : List Char :=
  if ip = [] then "<nil>".toList
  else
    match goTo4 ip with
    | some b4 => dottedChars b4
    | none =>
      if ip.length = 16 then ip6StringOfGroups (groups16 ip)
      else '?' :: (ip.map (fun b => [hexCh (b / 16), hexCh (b % 16)])).flatten

/-- Two-digit-per-byte hex print, as Go `net.IPMask.String`. -/
def maskHexChars (m : List Nat) : List Char :=
  (m.map (fun b => [hexCh (b / 16), hexCh (b % 16)])).flatten

/-- A parsed network: masked address plus mask, as Go `net.IPNet`. -/
structure IPNet where
  ip : GoIP
  mask : List Nat
deriving Repr, DecidableEq

/-- Go `net.networkNumberAndMask`: reduce an IPv4/IPv4-mapped network to
4-byte form (with the matching 4-byte tail of a 16-byte mask). -/
def networkNumberAndMask (n : IPNet) : Option (GoIP × List Nat) :=
  let ip? : Option GoIP :=
    match goTo4 n.ip with
    | some b4 => some b4
    | none => if n.ip.length = 16 then some n.ip else none
  match ip? with
  | none => none
  | some ip =>
    if n.mask.length = 4 then
      if ip.length = 4 then some (ip, n.mask) else none
    else if n.mask.length = 16 then
      if ip.length = 4 then some (ip, n.mask.drop 12) else some (ip, n.mask)
    else none

/-- Go `net.IPNet.String`. -/
def goIPNetString (n : IPNet) : List Char :=
  match networkNumberAndMask n with
  | none => "<nil>".toList
  | some (nn, m) =>
    match simpleMaskLen m with
    | none => goIPString nn ++ '/' :: maskHexChars m
    | some l => goIPString nn ++ '/' :: decChars l

/-! ## Go `net.ParseCIDR` and `net.ParseIP` -/

/-- The address parse of Go `net.ParseCIDR`: try `parseIPv4` (family width
4 bytes), fall back to `parseIPv6` (16 bytes). -/
def cidrParseIP (addr : List Char) : Option GoIP × Nat :=
  match parseV4Go addr with
  | some ip => (some ip, 4)
  | none => (parseV6Go addr, 16)

/-- The mask parse and network-masking tail of Go `net.ParseCIDR`: the mask
is a decimal prefix length consuming the whole mask string, bounded by the
address family's bit size; returns the unmasked address plus the masked
network. -/
def cidrFinish (ip : GoIP) (iplen : Nat) (mask : List Char) : Option (GoIP × IPNet) :=
  match dtoi mask with
  | (n, i, ok) =>
    if !ok || decide (i ≠ mask.length) || decide (n > 8 * iplen) then none
    else
      match goMaskIP ip (goCIDRMask n (8 * iplen)) with
      | some masked => some (ip, ⟨masked, goCIDRMask n (8 * iplen)⟩)
      | none => none

/-- Go `net.ParseCIDR`: split at the first `/`, then parse the two halves. -/
def goParseCIDR (s : String) : Option (GoIP × IPNet) :=
  let cs := s.toList
  if cs.all (fun c => c ≠ '/') then none
  else
    match cidrParseIP (cs.takeWhile (fun c => c ≠ '/')) with
    | (none, _) => none
    | (some ip, iplen) => cidrFinish ip iplen ((cs.dropWhile (fun c => c ≠ '/')).drop 1)

/-- Go `net.ParseIP` (via `netip.ParseAddr`): the first `.`, `:` or `%` of
the string routes the whole string to the IPv4 parse, the IPv6 parse, or an
error respectively; no separator at all fails. -/
def goParseIP (s : String) : Option GoIP :=
  match (s.toList.filter (fun c => c = '.' || c = ':' || c = '%')).head? with
  | some '.' => parseV4Go s.toList
  | some ':' => parseV6Go s.toList
  | _ => none

/-! ## The patricia trie (kentik/patricia), modelled

The trie itself is a third-party dependency, not part of the repository
sources; the spec (§3, §4.1) specifies only its contract: a store of
(128-bit prefix, value) pairs keyed by the first `Length` bits of the
address, where re-inserting an existing prefix overwrites its value, and
`FindDeepestTag` returns the value of the longest stored prefix containing a
full 128-bit query.  It is modelled as an association list of
(masked address, prefix length) pairs; since a bit-trie node only ever holds
the first `Length` bits of its key, addresses are masked on insertion, which
is observationally equivalent. -/

/-- `patricia.IPv6Address`: a 128-bit address (as 16 bytes) plus a prefix
length. -/
structure IPv6Address where
  addr : GoIP
  plen : Nat
deriving Repr, DecidableEq

/-- `patricia.NewIPv6Address`: pad (or truncate) the byte slice to 16 bytes. -/
def newIPv6Address (bytes : GoIP) (plen : Nat) : IPv6Address :=
  ⟨(bytes ++ List.replicate 16 0).take 16, plen⟩

/-- The node key a bit-trie would store for an address: its first `plen`
bits. -/
def nodePre (a : IPv6Address) : IPv6Address :=
  ⟨maskBytes a.addr (goCIDRMask a.plen 128), a.plen⟩

/-- Modelled `patricia/generics_tree.TreeV6`: the list of stored
(prefix, value) pairs, in insertion order. -/
abbrev TreeV6 (V : Type) := List (IPv6Address × V)

/-- `TreeV6.Set`: store `v` at the node of `a`'s first `plen` bits,
overwriting an existing entry for the same node. -/
def treeSet {V : Type} (t : TreeV6 V) (a : IPv6Address) (v : V) : TreeV6 V :=
  let key := nodePre a
  if (t.filter (fun e => e.1 = key)).isEmpty
  then t ++ [(key, v)]
  else t.map (fun e => if e.1 = key then (key, v) else e)

/-- Does the stored prefix `e` contain the 128-bit address `q` (first
`e.plen` bits equal)? -/
def entryMatches {V : Type} (e : IPv6Address × V) (q : GoIP) : Bool :=
  maskBytes q (goCIDRMask e.1.plen 128) = e.1.addr

/-- `TreeV6.FindDeepestTag` on a full 128-bit query: the value of the
longest stored prefix containing it. -/
def findDeep {V : Type} (t : TreeV6 V) (q : GoIP) : Option (Nat × V) :=
  t.foldl
    (fun best e =>
      if entryMatches e q then
        match best with
        | none => some (e.1.plen, e.2)
        | some (bl, bv) => if bl < e.1.plen then some (e.1.plen, e.2) else some (bl, bv)
      else best)
    none

/-! ## `SubnetMap` (common/helpers/subnetmap.go) -/

/-- `SubnetMap[V]`: a possibly-nil trie. -/
structure SubnetMap (V : Type) where
  tree : Option (TreeV6 V)

/-- The 16-byte key a query is looked up under: `ip.To16()` (an `ip` that is
neither 4 nor 16 bytes maps to `nil`, which `patricia.NewIPv6Address` pads
with zero bytes; no claim exercises it). -/
def lookupKey (ip : GoIP) : GoIP :=
  ((match goTo16 ip with
    | some b => b
    | none => []) ++ List.replicate 16 0).take 16

def SubnetMap.Lookup {V : Type} [Inhabited V] (sm : SubnetMap V) (ip : GoIP) : V × Bool :=
  match sm.tree with
  | none => (default, false)
  | some t =>
    match findDeep t (lookupKey ip) with
    | some (_, v) => (v, true)
    | none => (default, false)

/-! ## The decode hook (`SubnetMapUnmarshallerHook`)

The hook is generic in `V`; it is embedded at `V = string`, the
instantiation the repository's own tests use.  Raw decoded-so-far values
(Go `reflect.Value`s) are modelled by `GoValue`: a string (exactly type
`V`), a boolean (a type neither `map` nor convertible to `string`), or a
mapping.  The reflective target-type test `to.Type() == SubnetMap[V]{}` is
modelled by a boolean flag. -/

/-- A raw dynamic value handed to the decode hook. -/
inductive GoValue where
  | str (s : String)
  | boolean (b : Bool)
  | mapv (entries : List (GoValue × GoValue))
deriving Repr

/-- The errors the hook can produce (§7 taxonomy). -/
inductive DecodeError where
  /-- "key %d is not a string" -/
  | keyNotString (i : Nat)
  /-- `net.ParseCIDR` failure on a key -/
  | invalidCIDR (k : String)
  /-- "key %d has an invalid netmask" -/
  | invalidNetmask (i : Nat)
  /-- the delegated decode of the intermediate `map[string]V` failed -/
  | subDecode
  /-- re-parse of a canonical key failed ("Should not happen") -/
  | reparse (k : String)
deriving Repr, DecidableEq

/-- A decode hook outcome: decline (return the input unchanged with nil
error), a built table, or an error. -/
inductive HookResult where
  | declined (v : GoValue)
  | ok (t : SubnetMap String)
  | err (e : DecodeError)

/-- Lines 57–72 of the hook: parse one key, check the mask family, and
normalize (`bits == 32` → `::ffff:<ipv4>/<ones+96>`, `bits == 128` →
`ipNet.String()`). -/
def keyToV6 (i : Nat) (k : String) : Except DecodeError String :=
  match goParseCIDR k with
  | none => .error (.invalidCIDR k)
  | some (_, ipNet) =>
    match maskSize ipNet.mask with
    | (ones, bits) =>
      if bits ≠ 32 && bits ≠ 128 then .error (.invalidNetmask i)
      else if bits = 32 then
        .ok ("::ffff:" ++ String.mk (goIPString ipNet.ip) ++ "/" ++ String.mk (decChars (ones + 96)))
      else .ok (String.mk (goIPNetString ipNet))

/-- Go map assignment `output[key] = v` on an association list. -/
def upsert {V : Type} (l : List (String × V)) (k : String) (v : V) : List (String × V) :=
  if (l.filter (fun e => e.1 = k)).isEmpty
  then l ++ [(k, v)]
  else l.map (fun e => if e.1 = k then (k, v) else e)

/-- The mapping arm of the hook (lines 45–75): iterate the entries, require
string keys, normalize each key, and store the raw value under the
canonical key. -/
def buildOutput : List (GoValue × GoValue) → Nat → List (String × GoValue) →
    Except DecodeError (List (String × GoValue))
  | [], _, out => .ok out
  | (k, v) :: rest, i, out =>
    match k with
    | .str ks =>
      match keyToV6 i ks with
      | .error e => .error e
      | .ok key => buildOutput rest (i + 1) (upsert out key v)
    | _ => .error (.keyNotString i)

/-- Lines 84–92: the delegated decode of the intermediate `map[string]V`
through the caller's generic decoding mechanism.
Modelled from the spec: `GetMapStructureDecoderConfig` lives outside this
fragment; per §4.2 step 2 it decodes each raw value into `V` (here
`string`) and any failure (such as a value of the wrong type) aborts the
whole decode. -/
def subDecodeVals : List (String × GoValue) → Except DecodeError (List (String × String))
  | [] => .ok []
  | (k, .str s) :: rest =>
    match subDecodeVals rest with
    | .ok l => .ok ((k, s) :: l)
    | .error e => .error e
  | _ => .error .subDecode

/-- Lines 93–102: re-parse each canonical key and insert the value into a
fresh trie (`trie.Set(patricia.NewIPv6Address(ipNet.IP.To16(), plen), v)`). -/
def buildTrie : List (String × String) → TreeV6 String → Except DecodeError (TreeV6 String)
  | [], t => .ok t
  | (k, v) :: rest, t =>
    match goParseCIDR k with
    | none => .error (.reparse k)
    | some (_, ipNet) =>
      let plen := (maskSize ipNet.mask).1
      let ip16 := match goTo16 ipNet.ip with
        | some b => b
        | none => []
      buildTrie rest (treeSet t (newIPv6Address ip16 plen) v)

/-- `SubnetMapUnmarshallerHook[string]()`: the complete hook body
(lines 39–105). -/
def subnetMapUnmarshallerHook (from_ : GoValue) (toIsSubnetMapString : Bool) : HookResult :=
  if !toIsSubnetMapString then .declined from_
  else
    let output? : Except DecodeError (Option (List (String × GoValue))) :=
      match from_ with
      | .mapv entries =>
        match buildOutput entries 0 [] with
        | .ok out => .ok (some out)
        | .error e => .error e
      | .str s => .ok (some [("::/0", GoValue.str s)])
      | .boolean _ => .ok none
    match output? with
    | .error e => .err e
    | .ok none => .declined from_
    | .ok (some output) =>
      match subDecodeVals output with
      | .error e => .err e
      | .ok intermediate =>
        match buildTrie intermediate [] with
        | .error e => .err e
        | .ok trie => .ok ⟨some trie⟩

/-! ## `MarshalYAML` -/

/-- `patricia.IPv6Address.String`.
Modelled from the spec: the patricia trie's address printing is not under
the repository sources.  It is pinned by the repository's own test
expectations (src/unnamed/part_001): an IPv4-mapped stored prefix prints in
dotted IPv4 form with the prefix length reduced by 96 (the decoded
`{"203.0.113.0/24": …}` table must marshal back to the key
`203.0.113.0/24`, and `{"2001:db8:1::/64": …}` to `2001:db8:1::/64`);
other prefixes print in Go's IPv6 textual form with the stored length.
Since stored prefixes are masked, an IPv4-mapped prefix always has
`plen ≥ 96`. -/
def addrGoString (a : IPv6Address) : String :=
  match goTo4 a.addr with
  | some b4 => String.mk (dottedChars b4) ++ "/" ++ String.mk (decChars (a.plen - 96))
  | none => String.mk (goIPString a.addr) ++ "/" ++ String.mk (decChars a.plen)

/-- `SubnetMap.MarshalYAML` (lines 108–118): the canonical mapping, one
entry per stored prefix, keyed by the prefix's textual form. -/
def SubnetMap.marshalYAML (sm : SubnetMap String) : List (String × String) :=
  match sm.tree with
  | none => []
  | some t => t.map (fun e => (addrGoString e.1, e.2))

/-! ## Digit toolbox: print/parse round trips -/

/-- Value of a little-endian digit list in base `b`. -/
def valLE (b : Nat) (ds : List Nat) : Nat := ds.foldr (fun d acc => acc * b + d) 0

/-! ## Derived notions used by the proofs -/

/-- Left fold `a * b + d` over big-endian digits. -/
def accFold (b acc : Nat) (ds : List Nat) : Nat := ds.foldl (fun a d => a * b + d) acc

/-- Is the head of `r` a non-digit (or `r` empty)?  Guards the end of a
`dtoi` run. -/
def headNotDigit (r : List Char) : Bool :=
  match r with
  | [] => true
  | c :: _ => !isDigitCh c

/-- The fold step of `findDeep`. -/
def deepStep {V : Type} (q : GoIP) (best : Option (Nat × V)) (e : IPv6Address × V) :
    Option (Nat × V) :=
  if entryMatches e q then
    match best with
    | none => some (e.1.plen, e.2)
    | some (bl, bv) => if bl < e.1.plen then some (e.1.plen, e.2) else some (bl, bv)
  else best

/-- A mapping value with string keys and string values. -/
def mapStrs (l : List (String × String)) : GoValue :=
  .mapv (l.map (fun p => (.str p.1, .str p.2)))

/-- The table produced by a successful decode, if any. -/
def decodeOk (v : GoValue) : Option (SubnetMap String) :=
  match subnetMapUnmarshallerHook v true with
  | .ok t => some t
  | _ => none

/-- Decode `v`, then look the parsed address `q` up. -/
def lookupStr (v : GoValue) (q : String) : Option (String × Bool) :=
  match decodeOk v, goParseIP q with
  | some t, some ip => some (t.Lookup ip)
  | _, _ => none

/-- The bytes of a group list (big-endian 16-bit groups). -/
def ungroup (gs : List Nat) : List Nat := (gs.map (fun g => [g / 256, g % 256])).flatten

/-- Groups joined by `:` in hex, the uncompressed segments of Go's IPv6
print. -/
def joinG (gs : List Nat) : List Char := ((gs.map hexChars).intersperse [':']).flatten

/-- Is the head of `r` a non-hex-digit (or `r` empty)?  Guards the end of a
hex-group grab. -/
def headNotHex (r : List Char) : Bool :=
  match r with
  | [] => true
  | c :: _ => (hexVal c).isNone

/-- Invariant of every prefix stored by the decode hook: 16 bytes, bytes
below 256, prefix length at most 128, and the address already masked to its
prefix. -/
def EntryWF (a : IPv6Address) : Prop :=
  a.addr.length = 16 ∧ (∀ b ∈ a.addr, b < 256) ∧ a.plen ≤ 128 ∧
    maskBytes a.addr (goCIDRMask a.plen 128) = a.addr

/-- The canonical key of a stored prefix: what the hook's normalization pass
makes of its marshalled text. -/
def canonKey (a : IPv6Address) : String :=
  match keyToV6 0 (addrGoString a) with
  | .ok k => k
  | .error _ => ""

theorem valLE_nil (b : Nat) : valLE b [] = 0 := rfl

theorem valLE_cons (b d : Nat) (ds : List Nat) : valLE b (d :: ds) = valLE b ds * b + d := rfl

theorem digitsLE_val (b : Nat) (hb : 2 ≤ b) :
    ∀ fuel n, n ≤ fuel → valLE b (digitsLE b fuel n) = n := by
  intro fuel
  induction fuel with
  | zero => intro n hn; interval_cases n; rfl
  | succ f ih =>
    intro n hn
    by_cases h0 : n = 0
    · subst h0; simp [digitsLE, valLE]
    · have hdiv : n / b < n := Nat.div_lt_self (Nat.pos_of_ne_zero h0) (by omega)
      rw [digitsLE, if_neg h0, valLE_cons, ih (n / b) (by omega), Nat.mul_comm]
      exact Nat.div_add_mod n b

theorem digitsLE_lt (b : Nat) (hb : 2 ≤ b) :
    ∀ fuel n d, d ∈ digitsLE b fuel n → d < b := by
  intro fuel
  induction fuel with
  | zero => intro n d hd; simp [digitsLE] at hd
  | succ f ih =>
    intro n d hd
    by_cases h0 : n = 0
    · subst h0; simp [digitsLE] at hd
    · rw [digitsLE, if_neg h0] at hd
      rcases List.mem_cons.mp hd with h | h
      · subst h; exact Nat.mod_lt _ (by omega)
      · exact ih _ _ h

theorem digitsLE_ne_nil (b : Nat) (fuel n : Nat) (h0 : n ≠ 0) (hn : n ≤ fuel) :
    digitsLE b fuel n ≠ [] := by
  cases fuel with
  | zero => omega
  | succ f => rw [digitsLE, if_neg h0]; exact List.cons_ne_nil _ _

theorem digitsLE_getLast (b : Nat) (hb : 2 ≤ b) :
    ∀ fuel n, n ≠ 0 → n ≤ fuel → ∀ d, (digitsLE b fuel n).getLast? = some d → d ≠ 0 := by
  intro fuel
  induction fuel with
  | zero => intro n h0 hn; omega
  | succ f ih =>
    intro n h0 hn d hd
    by_cases hsmall : n < b
    · have hdiv : n / b = 0 := Nat.div_eq_of_lt hsmall
      have hs : digitsLE b (f + 1) n = [n % b] := by
        rw [digitsLE, if_neg h0, hdiv]
        cases f with
        | zero => rfl
        | succ f' => rw [digitsLE, if_pos rfl]
      rw [hs] at hd
      simp only [List.getLast?_singleton, Option.some.injEq] at hd
      rw [← hd, Nat.mod_eq_of_lt hsmall]; exact h0
    · have hd0 : n / b ≠ 0 := Nat.pos_iff_ne_zero.mp (Nat.div_pos (le_of_not_lt hsmall) (by omega))
      have hdle : n / b ≤ f := by
        have := Nat.div_lt_self (Nat.pos_of_ne_zero h0) (by omega : 1 < b)
        omega
      have hrest : digitsLE b f (n / b) ≠ [] := digitsLE_ne_nil b f (n / b) hd0 hdle
      have hrw : digitsLE b (f + 1) n = n % b :: digitsLE b f (n / b) := by
        rw [digitsLE, if_neg h0]
      rw [hrw] at hd
      apply ih (n / b) hd0 hdle d
      cases hcase : digitsLE b f (n / b) with
      | nil => exact absurd hcase hrest
      | cons y l' => rw [hcase] at hd; rw [← hd, List.getLast?_cons_cons]

theorem digitsLE_length (b : Nat) (hb : 2 ≤ b) :
    ∀ fuel n k, n ≤ fuel → n < b ^ k → (digitsLE b fuel n).length ≤ k := by
  intro fuel
  induction fuel with
  | zero => intro n k hn hk; interval_cases n; simp [digitsLE]
  | succ f ih =>
    intro n k hn hk
    by_cases h0 : n = 0
    · subst h0; simp [digitsLE]
    · rw [digitsLE, if_neg h0]
      cases k with
      | zero => simp at hk; omega
      | succ k' =>
        have hdiv : n / b < n := Nat.div_lt_self (Nat.pos_of_ne_zero h0) (by omega)
        have : n / b < b ^ k' := by
          rw [Nat.div_lt_iff_lt_mul (by omega : 0 < b)]
          calc n < b ^ (k' + 1) := hk
            _ = b ^ k' * b := by ring
        simpa using ih (n / b) k' (by omega) this

/-- Decimal digit characters: facts used by the `dtoi` round trip. -/
theorem digitCh_facts : ∀ d : Fin 10,
    isDigitCh (digitCh d.1) = true ∧ (digitCh d.1).toNat - 48 = d.1 ∧
    hexVal (digitCh d.1) = some d.1 ∧ digitCh d.1 ≠ ':' ∧ digitCh d.1 ≠ '.' ∧
    (digitCh d.1 = '0' ↔ d.1 = 0) := by decide

/-- Hex digit characters: facts used by the IPv6 group round trip. -/
theorem hexCh_facts : ∀ d : Fin 16,
    hexVal (hexCh d.1) = some d.1 ∧ hexCh d.1 ≠ ':' ∧ hexCh d.1 ≠ '.' ∧
    hexCh d.1 ≠ '%' ∧ hexCh d.1 ≠ '/' := by decide

theorem accFold_nil (b acc : Nat) : accFold b acc [] = acc := rfl

theorem accFold_cons (b acc d : Nat) (ds : List Nat) :
    accFold b acc (d :: ds) = accFold b (acc * b + d) ds := rfl

theorem accFold_ge (b : Nat) (hb : 1 ≤ b) :
    ∀ (ds : List Nat) (acc : Nat), acc ≤ accFold b acc ds := by
  intro ds
  induction ds with
  | nil => intro acc; simp [accFold]
  | cons d ds ih =>
    intro acc
    rw [accFold_cons]
    calc acc ≤ acc * b + d := by
          have : acc * 1 ≤ acc * b := Nat.mul_le_mul_left acc hb
          omega
      _ ≤ accFold b (acc * b + d) ds := ih _

theorem accFold_reverse (b : Nat) :
    ∀ ds : List Nat, accFold b 0 ds.reverse = valLE b ds := by
  intro ds
  induction ds with
  | nil => rfl
  | cons d ds ih =>
    rw [valLE_cons, ← ih]
    simp only [List.reverse_cons, accFold, List.foldl_append, List.foldl_cons, List.foldl_nil]

theorem dtoiLoop_digits :
    ∀ (ds : List Nat) (r : List Char) (acc i : Nat),
      (∀ d ∈ ds, d < 10) → headNotDigit r = true → accFold 10 acc ds < dtoiBig →
      dtoiLoop (ds.map digitCh ++ r) acc i = (accFold 10 acc ds, i + ds.length, true) := by
  intro ds
  induction ds with
  | nil =>
    intro r acc i _ hr _
    simp only [List.map_nil, List.nil_append, accFold_nil, List.length_nil, Nat.add_zero]
    cases r with
    | nil => rfl
    | cons c r' =>
      simp only [headNotDigit, Bool.not_eq_true'] at hr
      rw [dtoiLoop, if_neg (by simp [hr])]
  | cons d ds ih =>
    intro r acc i hds hr hlt
    have hd10 : d < 10 := hds d (List.mem_cons_self d ds)
    have hf := digitCh_facts ⟨d, hd10⟩
    simp only [List.map_cons, List.cons_append]
    rw [dtoiLoop, if_pos hf.1]
    have hval : (digitCh d).toNat - 48 = d := hf.2.1
    rw [accFold_cons] at hlt
    have hle : acc * 10 + d ≤ accFold 10 (acc * 10 + d) ds := accFold_ge 10 (by omega) ds _
    simp only [hval]
    rw [if_neg (by omega : ¬acc * 10 + d ≥ dtoiBig)]
    rw [ih r (acc * 10 + d) (i + 1) (fun x hx => hds x (List.mem_cons_of_mem d hx)) hr hlt]
    simp only [accFold_cons, List.length_cons, Prod.mk.injEq, hval]
    refine ⟨trivial, by omega, trivial⟩

theorem decChars_ne_nil (n : Nat) : decChars n ≠ [] := by
  by_cases h0 : n = 0
  · subst h0; simp [decChars]
  · rw [decChars, if_neg h0]
    intro hcon
    have hne := digitsLE_ne_nil 10 n n h0 (le_refl n)
    simp only [List.map_eq_nil_iff, List.reverse_eq_nil_iff] at hcon
    exact hne hcon

theorem dtoi_decChars (n : Nat) (r : List Char) (hn : n < dtoiBig)
    (hr : headNotDigit r = true) :
    dtoi (decChars n ++ r) = (n, (decChars n).length, true) := by
  by_cases h0 : n = 0
  · subst h0
    show dtoi (['0'] ++ r) = (0, 1, true)
    have h1 : dtoiLoop (([0].map digitCh) ++ r) 0 0 = (accFold 10 0 [0], 0 + 1, true) :=
      dtoiLoop_digits [0] r 0 0 (by simp) hr (by simp [accFold, dtoiBig])
    simp only [List.map_cons, List.map_nil] at h1
    show dtoi (digitCh 0 :: r) = (0, 1, true)
    rw [dtoi]
    simp only [List.singleton_append] at h1
    rw [h1]
    rfl
  · rw [decChars, if_neg h0]
    have hall : ∀ d ∈ (digitsLE 10 n n).reverse, d < 10 := by
      intro d hd
      exact digitsLE_lt 10 (by omega) n n d (List.mem_reverse.mp hd)
    have hacc : accFold 10 0 (digitsLE 10 n n).reverse = n := by
      rw [accFold_reverse, digitsLE_val 10 (by omega) n n (le_refl n)]
    have h1 := dtoiLoop_digits (digitsLE 10 n n).reverse r 0 0 hall hr (by rw [hacc]; exact hn)
    rw [hacc] at h1
    rw [dtoi, h1]
    have hlen : (digitsLE 10 n n).reverse.length ≠ 0 := by
      simp only [List.length_reverse, ne_eq, List.length_eq_zero]
      exact digitsLE_ne_nil 10 n n h0 (le_refl n)
    simp only [Nat.zero_add, List.length_map]
    simp only [if_true, List.length_reverse, List.length_eq_zero] at hlen ⊢
    simp [hlen, digitsLE_ne_nil 10 n n h0 (le_refl n)]

theorem decChars_zero : decChars 0 = ['0'] := rfl

theorem decChars_head (n : Nat) (h0 : n ≠ 0) : (decChars n).head? ≠ some '0' := by
  rw [decChars, if_neg h0, List.head?_map, List.head?_reverse]
  intro hcon
  rcases Option.map_eq_some'.mp hcon with ⟨d, hd, hch⟩
  have hne : d ≠ 0 := digitsLE_getLast 10 (by omega) n n h0 (le_refl n) d hd
  have hd10 : d < 10 := by
    rcases List.mem_getLast?_eq_getLast (show d ∈ (digitsLE 10 n n).getLast? from hd) with
      ⟨hnn, heq⟩
    have hmem : d ∈ digitsLE 10 n n := heq ▸ List.getLast_mem hnn
    exact digitsLE_lt 10 (by omega) n n d hmem
  exact hne (((digitCh_facts ⟨d, hd10⟩).2.2.2.2.2).mp hch)

theorem v4Field_decChars (a : Nat) (r : List Char) (ha : a ≤ 255)
    (hr : headNotDigit r = true) : v4FieldOk (decChars a ++ r) = some (a, r) := by
  have hd := dtoi_decChars a r (by simp [dtoiBig]; omega) hr
  rw [v4FieldOk, hd]
  have hc1 : decide (a ≤ 255) = true := decide_eq_true ha
  have hc2 : (decide ((decChars a).length > 1) &&
      decide ((decChars a ++ r).head? = some '0')) = false := by
    by_cases h0 : a = 0
    · subst h0; rw [decChars_zero]; simp
    · have hne : decChars a ≠ [] := decChars_ne_nil a
      have hh : (decChars a ++ r).head? ≠ some '0' := by
        rw [List.head?_append_of_ne_nil _ hne]; exact decChars_head a h0
      simp [hh]
      intro _
      exact ⟨decChars_head a h0, fun hcontra => absurd hcontra hne⟩
  simp only [hc1, hc2, Bool.and_true, Bool.true_and, Bool.not_false, if_true]
  rw [List.drop_left]

theorem dottedChars_four (a b c d : Nat) :
    dottedChars [a, b, c, d] =
      decChars a ++ '.' :: (decChars b ++ '.' :: (decChars c ++ '.' :: decChars d)) := by
  simp [dottedChars, List.intersperse]

theorem isDigitCh_dot : isDigitCh '.' = false := by decide

/-- The IPv4 print/parse round trip: Go's `parseIPv4` inverts the
dotted-decimal print, yielding the 16-byte mapped form. -/
theorem parseV4Go_dotted (a b c d : Nat)
    (ha : a ≤ 255) (hb : b ≤ 255) (hc : c ≤ 255) (hd : d ≤ 255) :
    parseV4Go (dottedChars [a, b, c, d]) = some (v4InV6Pre ++ [a, b, c, d]) := by
  rw [parseV4Go, dottedChars_four]
  rw [v4Field_decChars a _ ha (by rw [headNotDigit, isDigitCh_dot]; rfl)]
  show (match v4Rest 3 ('.' :: (decChars b ++ '.' :: (decChars c ++ '.' :: decChars d))) [a] with
    | some fields => some (v4InV6Pre ++ fields)
    | none => none) = _
  rw [v4Rest, v4Field_decChars b _ hb (by rw [headNotDigit, isDigitCh_dot]; rfl)]
  show (match v4Rest 2 ('.' :: (decChars c ++ '.' :: decChars d)) [b, a] with
    | some fields => some (v4InV6Pre ++ fields)
    | none => none) = _
  rw [v4Rest, v4Field_decChars c _ hc (by rw [headNotDigit, isDigitCh_dot]; rfl)]
  show (match v4Rest 1 ('.' :: decChars d) [c, b, a] with
    | some fields => some (v4InV6Pre ++ fields)
    | none => none) = _
  have h4 := v4Field_decChars d [] hd rfl
  rw [List.append_nil] at h4
  rw [v4Rest, h4]
  show (match v4Rest 0 [] [d, c, b, a] with
    | some fields => some (v4InV6Pre ++ fields)
    | none => none) = _
  rfl

/-! ## Mask facts, by finite check over the 129 (resp. 33) prefix lengths -/

theorem cidr128_size_fin : ∀ n : Fin 129, maskSize (goCIDRMask n.1 128) = (n.1, 128) := by decide

theorem cidr128_size (n : Nat) (h : n ≤ 128) : maskSize (goCIDRMask n 128) = (n, 128) :=
  cidr128_size_fin ⟨n, by omega⟩

theorem cidr32_size_fin : ∀ n : Fin 33, maskSize (goCIDRMask n.1 32) = (n.1, 32) := by decide

theorem cidr32_size (n : Nat) (h : n ≤ 32) : maskSize (goCIDRMask n 32) = (n, 32) :=
  cidr32_size_fin ⟨n, by omega⟩

theorem cidr128_split_fin : ∀ k : Fin 33,
    goCIDRMask (k.1 + 96) 128 = List.replicate 12 255 ++ goCIDRMask k.1 32 := by decide

theorem cidr128_split (k : Nat) (h : k ≤ 32) :
    goCIDRMask (k + 96) 128 = List.replicate 12 255 ++ goCIDRMask k 32 :=
  cidr128_split_fin ⟨k, by omega⟩

theorem cidr128_drop12_lt_fin : ∀ n : Fin 97,
    (goCIDRMask n.1 128).drop 12 = List.replicate 4 0 := by decide

theorem cidr128_drop12_lt (n : Nat) (h : n ≤ 96) :
    (goCIDRMask n 128).drop 12 = List.replicate 4 0 :=
  cidr128_drop12_lt_fin ⟨n, by omega⟩

theorem cidr128_length_fin : ∀ n : Fin 129, (goCIDRMask n.1 128).length = 16 := by decide

theorem cidr128_length (n : Nat) (h : n ≤ 128) : (goCIDRMask n 128).length = 16 :=
  cidr128_length_fin ⟨n, by omega⟩

theorem cidr32_length_fin : ∀ n : Fin 33, (goCIDRMask n.1 32).length = 4 := by decide

theorem cidr32_length (n : Nat) (h : n ≤ 32) : (goCIDRMask n 32).length = 4 :=
  cidr32_length_fin ⟨n, by omega⟩

theorem cidr128_byte11_lt_fin : ∀ n : Fin 96, (goCIDRMask n.1 128).getD 11 0 < 255 := by decide

theorem cidr128_byte11_lt (n : Nat) (h : n < 96) : (goCIDRMask n 128).getD 11 0 < 255 :=
  cidr128_byte11_lt_fin ⟨n, h⟩

theorem cidr128_bytes_lt_fin : ∀ n : Fin 129, ∀ x ∈ goCIDRMask n.1 128, x < 256 := by decide

theorem cidr128_bytes_lt (n : Nat) (h : n ≤ 128) : ∀ x ∈ goCIDRMask n 128, x < 256 :=
  cidr128_bytes_lt_fin ⟨n, by omega⟩

/-! ## Bytewise masking facts -/

theorem maskBytes_length (ip m : List Nat) :
    (maskBytes ip m).length = min ip.length m.length := by
  simp [maskBytes]

theorem maskBytes_idem (ip m : List Nat) :
    maskBytes (maskBytes ip m) m = maskBytes ip m := by
  induction ip generalizing m with
  | nil => cases m <;> rfl
  | cons a ip ih =>
    cases m with
    | nil => rfl
    | cons b m =>
      show ((a &&& b) &&& b) :: maskBytes (maskBytes ip m) m = _
      rw [Nat.land_assoc, Nat.and_self, ih]
      rfl

theorem maskBytes_take (ip m : List Nat) (k : Nat) :
    (maskBytes ip m).take k = maskBytes (ip.take k) (m.take k) := by
  simp [maskBytes, List.take_zipWith]

theorem maskBytes_drop (ip m : List Nat) (k : Nat) :
    (maskBytes ip m).drop k = maskBytes (ip.drop k) (m.drop k) := by
  simp [maskBytes, List.drop_zipWith]

theorem maskBytes_full (ip : List Nat) (hlt : ∀ x ∈ ip, x < 256) :
    ∀ k, maskBytes ip (List.replicate k 255) = ip.take k := by
  induction ip with
  | nil => intro k; cases k <;> rfl
  | cons a ip ih =>
    intro k
    cases k with
    | zero => rfl
    | succ k' =>
      show (a &&& 255) :: maskBytes ip (List.replicate k' 255) = a :: ip.take k'
      have ha : a < 256 := hlt a (List.mem_cons_self a ip)
      have h255 : a &&& 255 = a := by
        have := Nat.and_pow_two_sub_one_eq_mod a 8
        simpa using this.trans (Nat.mod_eq_of_lt ha)
      rw [h255, ih (fun x hx => hlt x (List.mem_cons_of_mem a hx))]

theorem maskBytes_zero (ip : List Nat) :
    ∀ k, maskBytes ip (List.replicate k 0) = List.replicate (min ip.length k) 0 := by
  induction ip with
  | nil => intro k; cases k <;> rfl
  | cons a ip ih =>
    intro k
    cases k with
    | zero => rfl
    | succ k' =>
      show (a &&& 0) :: maskBytes ip (List.replicate k' 0) = _
      rw [Nat.and_zero, ih]
      have hmin : (a :: ip).length ⊓ (k' + 1) = ip.length ⊓ k' + 1 := by
        simp [Nat.succ_min_succ]
      rw [hmin]
      simp [List.replicate_succ]

theorem maskBytes_lt (ip m : List Nat) (hlt : ∀ x ∈ m, x < 256) :
    ∀ x ∈ maskBytes ip m, x < 256 := by
  induction ip generalizing m with
  | nil => intro x hx; simp [maskBytes] at hx
  | cons a ip ih =>
    intro x hx
    cases m with
    | nil => simp [maskBytes] at hx
    | cons b m =>
      rcases List.mem_cons.mp hx with h | h
      · subst h
        have hb : b < 256 := hlt b (List.mem_cons_self b m)
        calc a &&& b ≤ b := Nat.and_le_right
          _ < 256 := hb
      · exact ih m (fun y hy => hlt y (List.mem_cons_of_mem b hy)) x h

/-! ## `findDeep` fold lemmas -/

theorem findDeep_eq_foldl {V : Type} (t : TreeV6 V) (q : GoIP) :
    findDeep t q = t.foldl (deepStep q) none := by
  rfl

/-- No matching entry: the fold preserves its accumulator. -/
theorem deepFold_none {V : Type} (q : GoIP) :
    ∀ (t : TreeV6 V) (acc : Option (Nat × V)),
      (∀ e ∈ t, entryMatches e q = false) → t.foldl (deepStep q) acc = acc := by
  intro t
  induction t with
  | nil => intro acc _; rfl
  | cons e t ih =>
    intro acc hall
    rw [List.foldl_cons]
    have he : entryMatches e q = false := hall e (List.mem_cons_self e t)
    have hstep : deepStep q acc e = acc := by simp only [deepStep, he]; simp
    rw [hstep]
    exact ih acc (fun x hx => hall x (List.mem_cons_of_mem e hx))

/-- Provenance: the fold's result is the accumulator or a matching entry. -/
theorem deepFold_provenance {V : Type} (q : GoIP) :
    ∀ (t : TreeV6 V) (acc : Option (Nat × V)),
      t.foldl (deepStep q) acc = acc ∨
      ∃ e, e ∈ t ∧ entryMatches e q = true ∧
        t.foldl (deepStep q) acc = some (e.1.plen, e.2) := by
  intro t
  induction t with
  | nil => intro acc; left; rfl
  | cons e t ih =>
    intro acc
    rw [List.foldl_cons]
    rcases ih (deepStep q acc e) with h | ⟨e', he', hm', hr'⟩
    · rw [h]
      by_cases hm : entryMatches e q = true
      · match acc with
        | none =>
          right
          exact ⟨e, List.mem_cons_self e t, hm, by simp only [deepStep, if_pos hm]⟩
        | some (bl, bv) =>
          by_cases hbl : bl < e.1.plen
          · right
            refine ⟨e, List.mem_cons_self e t, hm, ?_⟩
            simp only [deepStep, if_pos hm]
            simp [hbl]
          · left
            simp only [deepStep, if_pos hm]
            simp [hbl]
      · have hstep : deepStep q acc e = acc := by
          simp only [deepStep]
          simp [hm]
        left; rw [hstep]
    · right; exact ⟨e', List.mem_cons_of_mem e he', hm', hr'⟩

/-- Dominance: once a matching entry is seen, the fold's result is `some`
with a prefix length at least that entry's. -/
theorem deepFold_dominance {V : Type} (q : GoIP) :
    ∀ (t : TreeV6 V) (acc : Option (Nat × V)) (e : IPv6Address × V),
      e ∈ t → entryMatches e q = true →
      ∃ l v, t.foldl (deepStep q) acc = some (l, v) ∧ e.1.plen ≤ l := by
  intro t
  induction t with
  | nil => intro acc e he; simp at he
  | cons e0 t ih =>
    have hmono : ∀ (acc : Option (Nat × V)) bl bv, acc = some (bl, bv) →
        ∃ l v, t.foldl (deepStep q) acc = some (l, v) ∧ bl ≤ l := by
      clear ih
      induction t with
      | nil => intro acc bl bv hacc; exact ⟨bl, bv, by rw [hacc]; rfl, le_refl bl⟩
      | cons e1 t ih1 =>
        intro acc bl bv hacc
        subst hacc
        rw [List.foldl_cons]
        by_cases hm : entryMatches e1 q = true
        · by_cases hbl : bl < e1.1.plen
          · have hstep : deepStep q (some (bl, bv)) e1 = some (e1.1.plen, e1.2) := by
              simp only [deepStep, hm]; simp [hbl]
            rcases ih1 _ e1.1.plen e1.2 hstep with ⟨l, v, hl, hle⟩
            exact ⟨l, v, hl, by omega⟩
          · have hstep : deepStep q (some (bl, bv)) e1 = some (bl, bv) := by
              simp only [deepStep, hm]; simp [hbl]
            exact ih1 _ bl bv hstep
        · have hstep : deepStep q (some (bl, bv)) e1 = some (bl, bv) := by
            simp only [deepStep]; simp [hm]
          exact ih1 _ bl bv hstep
    intro acc e he hm
    rw [List.foldl_cons]
    rcases List.mem_cons.mp he with he0 | hmem
    · subst he0
      have hstep : ∃ bl bv, deepStep q acc e = some (bl, bv) ∧ e.1.plen ≤ bl := by
        match acc with
        | none => exact ⟨e.1.plen, e.2, by simp only [deepStep, hm]; simp, le_refl _⟩
        | some (bl, bv) =>
          by_cases hbl : bl < e.1.plen
          · exact ⟨e.1.plen, e.2, by simp only [deepStep, hm]; simp [hbl], le_refl _⟩
          · exact ⟨bl, bv, by simp only [deepStep, hm]; simp [hbl], by omega⟩
      rcases hstep with ⟨bl, bv, hst, hle⟩
      rcases hmono _ bl bv hst with ⟨l, v, hl, hle2⟩
      exact ⟨l, v, hl, by omega⟩
    · exact ih (deepStep q acc e0) e hmem hm

/-- The deepest-match contract of the trie, at `Lookup` level: for a table
whose matching entries are dominated by `e` (and agree with it on ties),
`Lookup` returns `e`'s value. -/
theorem lookup_deepest {V : Type} [Inhabited V] (t : TreeV6 V) (ip : GoIP)
    (e : IPv6Address × V) (hmem : e ∈ t) (hm : entryMatches e (lookupKey ip) = true)
    (hmax : ∀ e' ∈ t, entryMatches e' (lookupKey ip) = true → e'.1.plen ≤ e.1.plen)
    (huniq : ∀ e' ∈ t, entryMatches e' (lookupKey ip) = true →
      e'.1.plen = e.1.plen → e'.2 = e.2) :
    (SubnetMap.mk (some t)).Lookup ip = (e.2, true) := by
  have hdom := deepFold_dominance (lookupKey ip) t none e hmem hm
  rcases hdom with ⟨l, v, hl, hle⟩
  rcases deepFold_provenance (lookupKey ip) t none with h | ⟨e', he', hm', hr'⟩
  · rw [← findDeep_eq_foldl] at h
    rw [findDeep_eq_foldl] at h
    rw [h] at hl
    exact absurd hl (by simp)
  · rw [hr'] at hl
    have hl2 : e'.1.plen = l ∧ e'.2 = v := by
      have := hl
      simp only [Option.some.injEq, Prod.mk.injEq] at this
      exact this
    have hple : e'.1.plen ≤ e.1.plen := hmax e' he' hm'
    have heq : e'.1.plen = e.1.plen := by omega
    have hveq : e'.2 = e.2 := huniq e' he' hm' heq
    show (match findDeep t (lookupKey ip) with
      | some (_, v) => (v, true)
      | none => ((default : V), false)) = (e.2, true)
    rw [findDeep_eq_foldl, hr', ← hveq]

/-! ## Test harness helpers (mirror how the repository's own test drives the
API: build a `gin.H`-style mapping, decode it, then `Lookup(net.ParseIP(q))`). -/

/-! ## Error propagation in the mapping arm -/

theorem buildOutput_err (k : String) (hk : goParseCIDR k = none) :
    ∀ (entries : List (GoValue × GoValue)) (v : GoValue) (i : Nat)
      (out : List (String × GoValue)),
      (GoValue.str k, v) ∈ entries →
      ∃ e, buildOutput entries i out = .error e := by
  intro entries
  induction entries with
  | nil => intro v i out hmem; simp at hmem
  | cons p rest ih =>
    intro v i out hmem
    match p with
    | (GoValue.str ks, v') =>
      cases hkv : keyToV6 i ks with
      | error e => exact ⟨e, by simp [buildOutput, hkv]⟩
      | ok key =>
        rcases List.mem_cons.mp hmem with hhead | htail
        · have hks : ks = k := by
            have := congrArg Prod.fst hhead
            simpa using this.symm
          subst hks
          rw [keyToV6, hk] at hkv
          exact absurd hkv (by simp)
        · rcases ih v (i + 1) (upsert out key v') htail with ⟨e, he⟩
          exact ⟨e, by simp [buildOutput, hkv, he]⟩
    | (GoValue.boolean b, v') =>
      exact ⟨.keyNotString i, by simp [buildOutput]⟩
    | (GoValue.mapv m, v') =>
      exact ⟨.keyNotString i, by simp [buildOutput]⟩

theorem hook_mapv_err (entries : List (GoValue × GoValue)) (e : DecodeError)
    (h : buildOutput entries 0 [] = .error e) :
    subnetMapUnmarshallerHook (.mapv entries) true = .err e := by
  simp [subnetMapUnmarshallerHook, h]

theorem lookupKey_length (ip : GoIP) : (lookupKey ip).length = 16 := by
  rw [lookupKey]
  rw [List.length_take, List.length_append, List.length_replicate]
  omega

theorem cidr0_128 : goCIDRMask 0 128 = List.replicate 16 0 := by decide

/-- The `::/0` entry matches every query. -/
theorem entry_zero_matches {V : Type} (v : V) (ip : GoIP) :
    entryMatches ((⟨List.replicate 16 0, 0⟩ : IPv6Address), v) (lookupKey ip) = true := by
  rw [entryMatches]
  simp only [cidr0_128, maskBytes_zero, lookupKey_length]
  simp

/-! ## The claims -/

/-- **C1.** For every table and every queried 128-bit address, `Lookup`
returns the value of the stored entry whose prefix contains the address and
has the largest `prefixLength`; in particular, for a table built from
`{"10.0.0.0/8": "X", "10.0.0.0/16": "Y"}`, `Lookup("10.0.0.1")` returns
`("Y", true)` and `Lookup("10.1.0.1")` returns `("X", true)`.  (The
tie-breaking hypothesis reflects the trie invariant of §3/§4.1: two distinct
stored nodes that both contain the query have distinct lengths, so the value
at the maximal length is unique.) -/
theorem claim1_lookup_most_specific :
    (∀ (t : TreeV6 String) (ip : GoIP) (e : IPv6Address × String),
      e ∈ t → entryMatches e (lookupKey ip) = true →
      (∀ e' ∈ t, entryMatches e' (lookupKey ip) = true → e'.1.plen ≤ e.1.plen) →
      (∀ e' ∈ t, entryMatches e' (lookupKey ip) = true → e'.1.plen = e.1.plen → e'.2 = e.2) →
      (SubnetMap.mk (some t)).Lookup ip = (e.2, true)) ∧
    lookupStr (mapStrs [("10.0.0.0/8", "X"), ("10.0.0.0/16", "Y")]) "10.0.0.1"
      = some ("Y", true) ∧
    lookupStr (mapStrs [("10.0.0.0/8", "X"), ("10.0.0.0/16", "Y")]) "10.1.0.1"
      = some ("X", true) :=
  ⟨fun t ip e hmem hm hmax huniq => lookup_deepest t ip e hmem hm hmax huniq,
   by decide, by decide⟩

theorem claim1_lookup_most_specific_witness :
    (SubnetMap.mk (some [((⟨List.replicate 16 0, 0⟩ : IPv6Address), "v")])).Lookup
      [203, 0, 113, 4] = ("v", true) :=
  claim1_lookup_most_specific.1 _ _ _ (List.mem_cons_self _ _) (by decide)
    (by decide) (by decide)

/-- **C4.** Decoding a mapping containing any of the keys `"192.0.2.1/38"`,
`"192.0.2.1/255.0.255.0"`, or `"2001:db8::/1000"` returns a non-nil error
(the result is the error constructor, which carries no table, so the decode
fails atomically). -/
theorem claim4_invalid_masks_rejected (entries : List (GoValue × GoValue)) (k : String)
    (v : GoValue)
    (hk : k = "192.0.2.1/38" ∨ k = "192.0.2.1/255.0.255.0" ∨ k = "2001:db8::/1000")
    (hmem : (GoValue.str k, v) ∈ entries) :
    ∃ e, subnetMapUnmarshallerHook (.mapv entries) true = .err e := by
  have hparse : goParseCIDR k = none := by
    rcases hk with h | h | h <;> subst h <;> decide
  rcases buildOutput_err k hparse entries v 0 [] hmem with ⟨e, he⟩
  exact ⟨e, hook_mapv_err entries e he⟩

theorem claim4_invalid_masks_rejected_witness :
    (∃ e, subnetMapUnmarshallerHook (.mapv [(.str "192.0.2.1/38", .str "c")]) true = .err e) ∧
    (∃ e, subnetMapUnmarshallerHook (.mapv [(.str "192.0.2.1/255.0.255.0", .str "c")]) true
      = .err e) ∧
    (∃ e, subnetMapUnmarshallerHook (.mapv [(.str "2001:db8::/1000", .str "c")]) true
      = .err e) :=
  ⟨claim4_invalid_masks_rejected _ _ (.str "c") (Or.inl rfl) (List.mem_cons_self _ _),
   claim4_invalid_masks_rejected _ _ (.str "c") (Or.inr (Or.inl rfl)) (List.mem_cons_self _ _),
   claim4_invalid_masks_rejected _ _ (.str "c") (Or.inr (Or.inr rfl)) (List.mem_cons_self _ _)⟩

/-- **C5.** Decoding a bare value of type `V` produces exactly the table of
`{"::/0": value}`: the single `::/0` entry, which matches every IPv4 and
IPv6 address with `(value, true)`, and whose canonical mapping form is
`{"::/0": value}`. -/
theorem claim5_single_value (s : String) :
    subnetMapUnmarshallerHook (.str s) true =
      .ok ⟨some [((⟨List.replicate 16 0, 0⟩ : IPv6Address), s)]⟩ ∧
    (∀ ip : GoIP, ip.length = 4 ∨ ip.length = 16 →
      (SubnetMap.mk (some [((⟨List.replicate 16 0, 0⟩ : IPv6Address), s)])).Lookup ip
        = (s, true)) ∧
    SubnetMap.marshalYAML ⟨some [((⟨List.replicate 16 0, 0⟩ : IPv6Address), s)]⟩
      = [("::/0", s)] := by
  refine ⟨rfl, ?_, rfl⟩
  intro ip _
  have hm := entry_zero_matches s ip
  have hfind : findDeep [((⟨List.replicate 16 0, 0⟩ : IPv6Address), s)] (lookupKey ip)
      = some (0, s) := by
    rw [findDeep_eq_foldl, List.foldl_cons, List.foldl_nil]
    simp only [deepStep, hm]
    rfl
  simp only [SubnetMap.Lookup, hfind]

theorem claim5_single_value_witness :
    (SubnetMap.mk (some [((⟨List.replicate 16 0, 0⟩ : IPv6Address), "customer")])).Lookup
      [203, 0, 113, 4] = ("customer", true) :=
  (claim5_single_value "customer").2.1 [203, 0, 113, 4] (Or.inl rfl)

/-- **C6.** The hook declines — returns the input unchanged with a nil
error — whenever the target type is not `SubnetMap[V]`, and whenever the raw
input is neither a mapping nor a value convertible to `V` (in this embedding
at `V = string`, a boolean). -/
theorem claim6_hook_declines :
    (∀ v : GoValue, subnetMapUnmarshallerHook v false = .declined v) ∧
    (∀ b : Bool, subnetMapUnmarshallerHook (.boolean b) true = .declined (.boolean b)) :=
  ⟨fun _ => rfl, fun _ => rfl⟩

/-- **C7.** The zero-value table (nil tree), the table decoded from an empty
(or nil) mapping, and any table with no entry containing the query, all
report `(default, false)`; `Lookup`'s type has no error outcome. -/
theorem claim7_lookup_miss :
    (∀ ip : GoIP, (SubnetMap.mk (V := String) none).Lookup ip = ("", false)) ∧
    subnetMapUnmarshallerHook (.mapv []) true = .ok ⟨some []⟩ ∧
    (∀ ip : GoIP, (SubnetMap.mk (some ([] : TreeV6 String))).Lookup ip = ("", false)) ∧
    (∀ (t : TreeV6 String) (ip : GoIP),
      (∀ e ∈ t, entryMatches e (lookupKey ip) = false) →
      (SubnetMap.mk (some t)).Lookup ip = ("", false)) := by
  refine ⟨fun ip => rfl, rfl, fun ip => rfl, ?_⟩
  intro t ip hmiss
  have hnone : findDeep t (lookupKey ip) = none := by
    rw [findDeep_eq_foldl]
    exact deepFold_none (lookupKey ip) t none hmiss
  simp only [SubnetMap.Lookup, hnone]
  rfl

theorem claim7_lookup_miss_witness :
    (SubnetMap.mk (some ([((⟨List.replicate 15 0 ++ [1], 128⟩ : IPv6Address), "w")] :
      TreeV6 String))).Lookup [203, 0, 113, 1] = ("", false) :=
  claim7_lookup_miss.2.2.2 _ _ (by decide)

/-- **C8.** Looking up an IPv4 address and its IPv4-mapped IPv6 form gives
the same result on every table (both normalize to the same 16-byte key),
and the two textual spellings parse to the same address; in particular a
mapped query hits an entry stored under an IPv4 CIDR key. -/
theorem claim8_v4_mapped_equiv :
    (∀ (sm : SubnetMap String) (a b c d : Nat),
      a < 256 → b < 256 → c < 256 → d < 256 →
      sm.Lookup [a, b, c, d] = sm.Lookup (v4InV6Pre ++ [a, b, c, d])) ∧
    goParseIP "::ffff:203.0.113.18" = goParseIP "203.0.113.18" ∧
    lookupStr (mapStrs [("203.0.113.0/24", "A")]) "::ffff:203.0.113.18" = some ("A", true) ∧
    lookupStr (mapStrs [("203.0.113.0/24", "A")]) "203.0.113.18" = some ("A", true) := by
  refine ⟨?_, by decide, by decide, by decide⟩
  intro sm a b c d _ _ _ _
  have hk : lookupKey [a, b, c, d] = lookupKey (v4InV6Pre ++ [a, b, c, d]) := rfl
  rw [SubnetMap.Lookup, SubnetMap.Lookup, hk]

theorem claim8_v4_mapped_equiv_witness :
    (SubnetMap.mk (V := String) none).Lookup [203, 0, 113, 18]
      = (SubnetMap.mk (V := String) none).Lookup (v4InV6Pre ++ [203, 0, 113, 18]) :=
  claim8_v4_mapped_equiv.1 _ 203 0 113 18 (by omega) (by omega) (by omega) (by omega)

/-- **C10.** A key with host bits set beyond its prefix length is accepted:
`net.ParseCIDR` masks them, so `{"192.0.2.1/24": v}` decodes to exactly the
table of `{"192.0.2.0/24": v}`. -/
theorem claim10_host_bits_masked (v : String) :
    subnetMapUnmarshallerHook (mapStrs [("192.0.2.1/24", v)]) true =
      subnetMapUnmarshallerHook (mapStrs [("192.0.2.0/24", v)]) true ∧
    ∃ tr : TreeV6 String,
      subnetMapUnmarshallerHook (mapStrs [("192.0.2.1/24", v)]) true = .ok ⟨some tr⟩ :=
  ⟨rfl, ⟨[((⟨v4InV6Pre ++ [192, 0, 2, 0], 120⟩ : IPv6Address), v)], by rfl⟩⟩

theorem claim10_host_bits_masked_witness :
    subnetMapUnmarshallerHook (mapStrs [("192.0.2.1/24", "cust")]) true =
      subnetMapUnmarshallerHook (mapStrs [("192.0.2.0/24", "cust")]) true :=
  (claim10_host_bits_masked "cust").1

/-! ## IPv6 print/parse round trip -/

theorem ungroup_nil : ungroup [] = [] := rfl

theorem ungroup_cons (g : Nat) (gs : List Nat) :
    ungroup (g :: gs) = g / 256 :: g % 256 :: ungroup gs := rfl

theorem ungroup_append (l1 l2 : List Nat) :
    ungroup (l1 ++ l2) = ungroup l1 ++ ungroup l2 := by
  simp [ungroup]

theorem ungroup_length (gs : List Nat) : (ungroup gs).length = 2 * gs.length := by
  induction gs with
  | nil => rfl
  | cons g gs ih => rw [ungroup_cons]; simp only [List.length_cons, ih]; omega

theorem ungroup_replicate_zero (k : Nat) :
    ungroup (List.replicate k 0) = List.replicate (2 * k) 0 := by
  induction k with
  | zero => rfl
  | succ k ih =>
    rw [List.replicate_succ, ungroup_cons, ih]
    show 0 :: 0 :: List.replicate (2 * k) 0 = _
    have : 2 * (k + 1) = 2 * k + 1 + 1 := by omega
    rw [this, List.replicate_succ, List.replicate_succ]

theorem joinG_singleton (g : Nat) : joinG [g] = hexChars g := by
  simp [joinG, List.intersperse]

theorem joinG_cons (g g' : Nat) (gs : List Nat) :
    joinG (g :: g' :: gs) = hexChars g ++ ':' :: joinG (g' :: gs) := by
  simp [joinG, List.intersperse]

theorem groups16_length (bs : List Nat) : (groups16 bs).length = bs.length / 2 := by
  induction bs using groups16.induct with
  | case1 a b rest ih =>
    rw [groups16]
    simp only [List.length_cons, ih]
    omega
  | case2 bs h => cases bs with
    | nil => simp [groups16]
    | cons a t =>
      cases t with
      | nil => simp [groups16]
      | cons b r => exact absurd rfl (h a b r)

theorem groups16_lt (bs : List Nat) (hb : ∀ b ∈ bs, b < 256) :
    ∀ g ∈ groups16 bs, g < 65536 := by
  induction bs using groups16.induct with
  | case1 a b rest ih =>
    intro g hg
    rw [groups16] at hg
    rcases List.mem_cons.mp hg with h | h
    · subst h
      have ha : a < 256 := hb a (by simp)
      have hbb : b < 256 := hb b (by simp)
      omega
    · exact ih (fun x hx => hb x (by simp [hx])) g h
  | case2 bs h =>
    intro g hg
    cases bs with
    | nil => simp [groups16] at hg
    | cons a t =>
      cases t with
      | nil => simp [groups16] at hg
      | cons b r => exact absurd rfl (h a b r)

theorem ungroup_groups16 (bs : List Nat) (heven : bs.length % 2 = 0)
    (hb : ∀ b ∈ bs, b < 256) : ungroup (groups16 bs) = bs := by
  induction bs using groups16.induct with
  | case1 a b rest ih =>
    rw [groups16, ungroup_cons]
    have ha : a < 256 := hb a (by simp)
    have hbb : b < 256 := hb b (by simp)
    have hdiv : (a * 256 + b) / 256 = a := by
      rw [Nat.add_comm, Nat.add_mul_div_right _ _ (by omega : 0 < 256),
        Nat.div_eq_of_lt hbb]
      omega
    have hmod : (a * 256 + b) % 256 = b := by
      rw [Nat.add_comm, Nat.add_mul_mod_self_right, Nat.mod_eq_of_lt hbb]
    have heven' : rest.length % 2 = 0 := by simp at heven; omega
    rw [hdiv, hmod, ih heven' (fun x hx => hb x (by simp [hx]))]
  | case2 bs h =>
    cases bs with
    | nil => rfl
    | cons a t =>
      cases t with
      | nil => simp at heven
      | cons b r => exact absurd rfl (h a b r)

theorem hexChars_ne_nil (g : Nat) : hexChars g ≠ [] := by
  by_cases h0 : g = 0
  · subst h0; simp [hexChars]
  · rw [hexChars, if_neg h0]
    intro hcon
    have hne := digitsLE_ne_nil 16 g g h0 (le_refl g)
    simp only [List.map_eq_nil_iff, List.reverse_eq_nil_iff] at hcon
    exact hne hcon

theorem hexChars_mem (g : Nat) :
    ∀ c ∈ hexChars g, ∃ d, d < 16 ∧ c = hexCh d := by
  by_cases h0 : g = 0
  · subst h0
    intro c hc
    have hz : hexChars 0 = ['0'] := rfl
    rw [hz, List.mem_singleton] at hc
    exact ⟨0, by omega, by rw [hc]; rfl⟩
  · rw [hexChars, if_neg h0]
    intro c hc
    rcases List.mem_map.mp hc with ⟨d, hd, hch⟩
    have hd16 : d < 16 :=
      digitsLE_lt 16 (by omega) g g d (List.mem_reverse.mp hd)
    exact ⟨d, hd16, hch.symm⟩

theorem hexChars_props (g : Nat) :
    ∀ c ∈ hexChars g, (hexVal c).isSome = true ∧ c ≠ ':' ∧ c ≠ '.' ∧ c ≠ '%' ∧ c ≠ '/' := by
  intro c hc
  rcases hexChars_mem g c hc with ⟨d, hd16, hch⟩
  subst hch
  have h1 := (hexCh_facts ⟨d, hd16⟩).1
  exact ⟨by simp [h1], (hexCh_facts ⟨d, hd16⟩).2.1, (hexCh_facts ⟨d, hd16⟩).2.2.1,
    (hexCh_facts ⟨d, hd16⟩).2.2.2.1, (hexCh_facts ⟨d, hd16⟩).2.2.2.2⟩

theorem hexChars_length_le (g : Nat) (hg : g < 65536) : (hexChars g).length ≤ 4 := by
  by_cases h0 : g = 0
  · subst h0; simp [hexChars]
  · rw [hexChars, if_neg h0]
    simp only [List.length_map, List.length_reverse]
    exact digitsLE_length 16 (by omega) g g 4 (le_refl g) (by norm_num; omega)

theorem hexChars_val (g : Nat) :
    (hexChars g).foldl (fun a c => a * 16 + (hexVal c).getD 0) 0 = g := by
  by_cases h0 : g = 0
  · subst h0; decide
  · rw [hexChars, if_neg h0]
    have hfold : ((digitsLE 16 g g).reverse.map hexCh).foldl
        (fun a c => a * 16 + (hexVal c).getD 0) 0 =
        (digitsLE 16 g g).reverse.foldl (fun a d => a * 16 + (hexVal (hexCh d)).getD 0) 0 :=
      List.foldl_map _ _ _ _
    rw [hfold]
    have hext : (digitsLE 16 g g).reverse.foldl
        (fun a d => a * 16 + (hexVal (hexCh d)).getD 0) 0 =
        (digitsLE 16 g g).reverse.foldl (fun a d => a * 16 + d) 0 := by
      apply List.foldl_ext
      intro a d hd
      have hd16 : d < 16 :=
        digitsLE_lt 16 (by omega) g g d (List.mem_reverse.mp hd)
      rw [(hexCh_facts ⟨d, hd16⟩).1]
      rfl
    rw [hext]
    have : (digitsLE 16 g g).reverse.foldl (fun a d => a * 16 + d) 0 =
        accFold 16 0 (digitsLE 16 g g).reverse := rfl
    rw [this, accFold_reverse, digitsLE_val 16 (by omega) g g (le_refl g)]

/-- A hex-digit run of length ≤ 4 followed by a non-hex (or empty) rest:
the grab returns its hex value and the rest. -/
theorem grabHex_all :
    ∀ (cs r : List Char) (acc off : Nat),
      (∀ c ∈ cs, (hexVal c).isSome = true) → headNotHex r = true →
      off + cs.length ≤ 4 →
      grabHex (cs ++ r) acc off =
        some (cs.foldl (fun a c => a * 16 + (hexVal c).getD 0) acc, off + cs.length, r) := by
  intro cs
  induction cs with
  | nil =>
    intro r acc off _ hr _
    simp only [List.nil_append, List.foldl_nil, List.length_nil, Nat.add_zero]
    cases r with
    | nil => rfl
    | cons c r' =>
      rw [headNotHex] at hr
      rw [grabHex]
      rcases hopt : hexVal c with - | v
      · rfl
      · rw [hopt] at hr; simp at hr
  | cons c cs ih =>
    intro r acc off hcs hr hle
    have hc : (hexVal c).isSome = true := hcs c (List.mem_cons_self c cs)
    rcases hopt : hexVal c with - | v
    · rw [hopt] at hc; simp at hc
    · show grabHex (c :: (cs ++ r)) acc off = _
      simp only [grabHex, hopt]
      simp only [List.length_cons] at hle
      rw [if_neg (by omega : ¬off ≥ 4)]
      rw [ih r (acc * 16 + v) (off + 1)
        (fun x hx => hcs x (List.mem_cons_of_mem c hx)) hr (by omega)]
      simp only [List.foldl_cons, hopt, Option.getD_some, List.length_cons]
      have harith : off + 1 + cs.length = off + (cs.length + 1) := by omega
      rw [harith]

theorem grabHex_hexChars (g : Nat) (hg : g < 65536) (r : List Char)
    (hr : headNotHex r = true) :
    grabHex (hexChars g ++ r) 0 0 = some (g, (hexChars g).length, r) := by
  rw [grabHex_all (hexChars g) r 0 0 (fun c hc => (hexChars_props g c hc).1) hr
    (by simpa using hexChars_length_le g hg)]
  rw [hexChars_val]
  simp

/-- A decimal run (as printed) grabs as hex digits too, stopping at the rest. -/
theorem grabHex_decChars (a : Nat) (ha : a ≤ 255) (r : List Char)
    (hr : headNotHex r = true) :
    ∃ gval, grabHex (decChars a ++ r) 0 0 = some (gval, (decChars a).length, r) := by
  have hhex : ∀ c ∈ decChars a, (hexVal c).isSome = true := by
    intro c hc
    by_cases h0 : a = 0
    · subst h0
      simp only [decChars_zero, List.mem_singleton] at hc
      subst hc; decide
    · rw [decChars, if_neg h0] at hc
      rcases List.mem_map.mp hc with ⟨d, hd, hch⟩
      have hd10 : d < 10 := digitsLE_lt 10 (by omega) a a d (List.mem_reverse.mp hd)
      rw [← hch, (digitCh_facts ⟨d, hd10⟩).2.2.1]
      rfl
  have hlen : (decChars a).length ≤ 4 := by
    by_cases h0 : a = 0
    · subst h0; simp [decChars_zero]
    · rw [decChars, if_neg h0]
      simp only [List.length_map, List.length_reverse]
      calc (digitsLE 10 a a).length ≤ 3 :=
          digitsLE_length 10 (by omega) a a 3 (le_refl a) (by norm_num; omega)
        _ ≤ 4 := by omega
  have h := grabHex_all (decChars a) r 0 0 hhex hr (by simpa using hlen)
  simp only [Nat.zero_add] at h
  exact ⟨_, h⟩

theorem joinG_nil : joinG [] = [] := rfl

/-- A nonempty joined group list starts with a hex digit. -/
theorem joinG_shape (gs : List Nat) (h : gs ≠ []) :
    ∃ c cs, joinG gs = c :: cs ∧ c ≠ ':' ∧ c ≠ '.' ∧ (hexVal c).isSome = true := by
  match gs with
  | [] => exact absurd rfl h
  | g :: gs' =>
    rcases List.exists_cons_of_ne_nil (hexChars_ne_nil g) with ⟨c, cs, hcc⟩
    have hmem : c ∈ hexChars g := by rw [hcc]; exact List.mem_cons_self _ _
    have hp := hexChars_props g c hmem
    cases gs' with
    | nil => exact ⟨c, cs, by rw [joinG_singleton, hcc], hp.2.1, hp.2.2.1, hp.1⟩
    | cons g'' gs'' =>
      exact ⟨c, cs ++ ':' :: joinG (g'' :: gs''), by rw [joinG_cons, hcc]; rfl,
        hp.2.1, hp.2.2.1, hp.1⟩

/-- Consuming a joined group segment: the loop turns each group into its two
bytes and stops at the end of the string. -/
theorem loop_plain :
    ∀ (gs : List Nat) (f i : Nat) (ell : Option Nat) (acc : List Nat),
      gs ≠ [] → (∀ g ∈ gs, g < 65536) → gs.length ≤ f → i + 2 * gs.length ≤ 16 →
      loopCollect f (joinG gs) i ell acc =
        some (acc ++ ungroup gs, ell, i + 2 * gs.length, []) := by
  intro gs
  induction gs with
  | nil => intro f i ell acc hne; exact absurd rfl hne
  | cons g gs ih =>
    intro f i ell acc _ hlt hf hi
    have hg : g < 65536 := hlt g (List.mem_cons_self g gs)
    cases f with
    | zero => simp at hf
    | succ f =>
      cases gs with
      | nil =>
        rw [joinG_singleton]
        have hgrab := grabHex_hexChars g hg [] rfl
        rw [List.append_nil] at hgrab
        have hoff : (hexChars g).length ≠ 0 := by simpa using hexChars_ne_nil g
        rw [loopCollect, if_neg (by simp at hi ⊢; omega : ¬i ≥ 16), hgrab]
        simp only [hoff, List.head?_nil, ungroup_cons, ungroup_nil]
        simp only [List.length_cons, List.length_nil]
        show some (acc ++ [g / 256, g % 256], ell, i + 2, []) =
          some (acc ++ [g / 256, g % 256], ell, i + 2 * (0 + 1), [])
        have : 2 * (0 + 1) = 2 := by omega
        rw [this]
      | cons g' gs' =>
        rw [joinG_cons]
        rcases joinG_shape (g' :: gs') (by simp) with ⟨c2, cs2, hj, hc2, _, _⟩
        have hgrab := grabHex_hexChars g hg (':' :: joinG (g' :: gs')) rfl
        have hoff : (hexChars g).length ≠ 0 := by simpa using hexChars_ne_nil g
        rw [loopCollect, if_neg (by simp at hi ⊢; omega : ¬i ≥ 16), hgrab]
        simp only [hoff, List.head?_cons, hj]
        simp only [List.length_cons] at hi hf ⊢
        rw [← hj]
        have hstep := ih f (i + 2) ell (acc ++ [g / 256, g % 256]) (by simp)
          (fun x hx => hlt x (List.mem_cons_of_mem g hx))
          (by simp only [List.length_cons]; omega)
          (by simp only [List.length_cons] at hi ⊢; omega)
        simp [hc2, hstep, ungroup_cons, List.append_assoc]
        omega

/-- Consuming a joined segment, a `::`, and a second joined segment: the
loop records the ellipsis position between them. -/
theorem loop_ell :
    ∀ (gs gs2 : List Nat) (f i : Nat) (acc : List Nat),
      gs ≠ [] → (∀ g ∈ gs, g < 65536) → (∀ g ∈ gs2, g < 65536) →
      gs.length + gs2.length ≤ f → i + 2 * gs.length + 2 * gs2.length ≤ 16 →
      loopCollect f (joinG gs ++ ':' :: ':' :: joinG gs2) i none acc =
        some (acc ++ ungroup gs ++ ungroup gs2, some (i + 2 * gs.length),
          i + 2 * gs.length + 2 * gs2.length, []) := by
  intro gs
  induction gs with
  | nil => intro gs2 f i acc hne; exact absurd rfl hne
  | cons g gs ih =>
    intro gs2 f i acc _ hlt hlt2 hf hi
    have hg : g < 65536 := hlt g (List.mem_cons_self g gs)
    cases f with
    | zero => simp at hf
    | succ f =>
      cases gs with
      | nil =>
        rw [joinG_singleton]
        have hgrab := grabHex_hexChars g hg (':' :: ':' :: joinG gs2) rfl
        have hoff : (hexChars g).length ≠ 0 := by simpa using hexChars_ne_nil g
        rw [loopCollect, if_neg (by simp at hi ⊢; omega : ¬i ≥ 16), hgrab]
        simp only [hoff, List.head?_cons]
        cases gs2 with
        | nil =>
          simp only [joinG_nil]
          simp [ungroup_cons, ungroup_nil]
        | cons g2 gs2' =>
          rcases joinG_shape (g2 :: gs2') (by simp) with ⟨c3, cs3, hj3, _, _, _⟩
          have hstep := loop_plain (g2 :: gs2') f (i + 2) (some (i + 2))
            (acc ++ [g / 256, g % 256]) (by simp) hlt2
            (by simp at hf ⊢; omega)
            (by simp at hi ⊢; omega)
          rw [hj3] at hstep
          simp [hj3, hstep, ungroup_cons, ungroup_nil, List.append_assoc]
      | cons g' gs' =>
        have hshape : joinG (g :: g' :: gs') ++ ':' :: ':' :: joinG gs2 =
            hexChars g ++ ':' :: (joinG (g' :: gs') ++ ':' :: ':' :: joinG gs2) := by
          rw [joinG_cons]
          simp [List.append_assoc]
        rw [hshape]
        rcases joinG_shape (g' :: gs') (by simp) with ⟨c2, cs2, hj, hc2, _, _⟩
        have hgrab := grabHex_hexChars g hg
          (':' :: (joinG (g' :: gs') ++ ':' :: ':' :: joinG gs2)) rfl
        have hoff : (hexChars g).length ≠ 0 := by simpa using hexChars_ne_nil g
        rw [loopCollect, if_neg (by simp at hi ⊢; omega : ¬i ≥ 16), hgrab]
        have hj' : joinG (g' :: gs') ++ ':' :: ':' :: joinG gs2 =
            c2 :: (cs2 ++ ':' :: ':' :: joinG gs2) := by rw [hj]; rfl
        simp only [hoff, List.head?_cons, hj']
        rw [← hj']
        have hstep := ih gs2 f (i + 2) (acc ++ [g / 256, g % 256]) (by simp)
          (fun x hx => hlt x (List.mem_cons_of_mem g hx)) hlt2
          (by simp only [List.length_cons] at hf ⊢; omega)
          (by simp only [List.length_cons] at hi ⊢; omega)
        simp [hc2, hstep, ungroup_cons, List.append_assoc]
        omega

theorem zeroRunLen_spec :
    ∀ l : List Nat, l.take (zeroRunLen l) = List.replicate (zeroRunLen l) 0 ∧
      zeroRunLen l ≤ l.length := by
  intro l
  induction l with
  | nil => exact ⟨rfl, le_refl 0⟩
  | cons x rest ih =>
    by_cases hx : x = 0
    · subst hx
      have hz : zeroRunLen (0 :: rest) = zeroRunLen rest + 1 := rfl
      rw [hz]
      constructor
      · rw [List.take_succ_cons, List.replicate_succ, ih.1]
      · simp only [List.length_cons]; omega
    · have hz : zeroRunLen (x :: rest) = 0 := by
        cases x with
        | zero => exact absurd rfl hx
        | succ n => rfl
      rw [hz]
      exact ⟨rfl, by omega⟩

theorem scan_sound :
    ∀ (l : List Nat) (idx : Nat) (best : Nat × Nat),
      bestZeroRun.scan l idx best = best ∨
      ∃ j, j < l.length ∧ bestZeroRun.scan l idx best = (idx + j, zeroRunLen (l.drop j)) := by
  intro l
  induction l with
  | nil => intro idx best; left; rfl
  | cons g rest ih =>
    intro idx best
    rw [bestZeroRun.scan]
    rcases ih (idx + 1) (if zeroRunLen (g :: rest) > best.2 then (idx, zeroRunLen (g :: rest))
      else best) with h | ⟨j, hj, heq⟩
    · rw [h]
      by_cases hgt : zeroRunLen (g :: rest) > best.2
      · right
        refine ⟨0, by simp, ?_⟩
        rw [if_pos hgt]
        simp
      · left; rw [if_neg hgt]
    · right
      refine ⟨j + 1, by simpa using hj, ?_⟩
      rw [heq]
      have : idx + 1 + j = idx + (j + 1) := by omega
      rw [this]
      rfl

theorem bestZeroRun_sound (gs : List Nat) (e0 len : Nat)
    (h : bestZeroRun gs = some (e0, len)) :
    2 ≤ len ∧ e0 + len ≤ gs.length ∧ (gs.drop e0).take len = List.replicate len 0 := by
  rw [bestZeroRun] at h
  by_cases hge : (bestZeroRun.scan gs 0 (0, 0)).2 ≥ 2
  · rw [if_pos hge] at h
    have hbest : bestZeroRun.scan gs 0 (0, 0) = (e0, len) := by
      simpa using h
    rcases scan_sound gs 0 (0, 0) with hs | ⟨j, hj, heq⟩
    · rw [hs] at hbest
      have : len = 0 := by
        have := congrArg Prod.snd hbest
        simpa using this.symm
      rw [hs, hbest] at hge
      simp at hge
      omega
    · rw [heq] at hbest
      have he0 : e0 = j := by
        have := congrArg Prod.fst hbest
        simpa using this.symm
      have hlen : len = zeroRunLen (gs.drop j) := by
        have := congrArg Prod.snd hbest
        simpa using this.symm
      subst he0
      rcases zeroRunLen_spec (gs.drop e0) with ⟨htake, hle⟩
      rw [heq] at hge
      simp only at hge
      refine ⟨by omega, ?_, by rw [hlen]; exact htake⟩
      rw [List.length_drop] at hle
      omega
  · rw [if_neg hge] at h
    exact absurd h (by simp)

theorem run_decomp (gs : List Nat) (e0 len : Nat)
    (h1 : (gs.drop e0).take len = List.replicate len 0) :
    gs = gs.take e0 ++ List.replicate len 0 ++ gs.drop (e0 + len) := by
  have hsplit : gs = gs.take e0 ++ gs.drop e0 := (List.take_append_drop e0 gs).symm
  have hsplit2 : gs.drop e0 = (gs.drop e0).take len ++ (gs.drop e0).drop len :=
    (List.take_append_drop len (gs.drop e0)).symm
  rw [List.drop_drop] at hsplit2
  calc gs = gs.take e0 ++ gs.drop e0 := hsplit
    _ = gs.take e0 ++ (List.replicate len 0 ++ gs.drop (e0 + len)) := by
        rw [← h1, ← hsplit2]
    _ = gs.take e0 ++ List.replicate len 0 ++ gs.drop (e0 + len) := by
        rw [List.append_assoc]

theorem joinG_mem (gs : List Nat) :
    ∀ c ∈ joinG gs, c = ':' ∨ ∃ g ∈ gs, c ∈ hexChars g := by
  induction gs with
  | nil => intro c hc; simp [joinG_nil] at hc
  | cons g gs ih =>
    intro c hc
    cases gs with
    | nil =>
      rw [joinG_singleton] at hc
      exact Or.inr ⟨g, List.mem_cons_self g [], hc⟩
    | cons g' gs' =>
      rw [joinG_cons] at hc
      rcases List.mem_append.mp hc with h | h
      · exact Or.inr ⟨g, List.mem_cons_self _ _, h⟩
      · rcases List.mem_cons.mp h with h' | h'
        · exact Or.inl h'
        · rcases ih c h' with h'' | ⟨g'', hg'', hc''⟩
          · exact Or.inl h''
          · exact Or.inr ⟨g'', List.mem_cons_of_mem g hg'', hc''⟩

theorem joinG_no_pct (gs : List Nat) : ∀ c ∈ joinG gs, c ≠ '%' := by
  intro c hc
  rcases joinG_mem gs c hc with h | ⟨g, _, hcg⟩
  · subst h; decide
  · rcases hexChars_mem g c hcg with ⟨d, hd16, hch⟩
    subst hch
    exact (hexCh_facts ⟨d, hd16⟩).2.2.2.1

theorem ip6String_none (gs : List Nat) (h : bestZeroRun gs = none) :
    ip6StringOfGroups gs = joinG gs := by
  rw [ip6StringOfGroups, h]; rfl

theorem ip6String_some (gs : List Nat) (e0 len : Nat)
    (h : bestZeroRun gs = some (e0, len)) :
    ip6StringOfGroups gs =
      joinG (gs.take e0) ++ ':' :: ':' :: joinG (gs.drop (e0 + len)) := by
  rw [ip6StringOfGroups, h]
  simp [joinG, List.append_assoc]

theorem ip6String_no_pct (gs : List Nat) : ∀ c ∈ ip6StringOfGroups gs, c ≠ '%' := by
  intro c hc
  cases hbest : bestZeroRun gs with
  | none =>
    rw [ip6String_none gs hbest] at hc
    exact joinG_no_pct gs c hc
  | some p =>
    rw [ip6String_some gs p.1 p.2 (by rw [hbest])] at hc
    rcases List.mem_append.mp hc with h | h
    · exact joinG_no_pct _ c h
    · rcases List.mem_cons.mp h with h' | h'
      · subst h'; decide
      · rcases List.mem_cons.mp h' with h'' | h''
        · subst h''; decide
        · exact joinG_no_pct _ c h''

theorem takeWhile_no_pct (s : List Char) (h : ∀ c ∈ s, c ≠ '%') :
    s.takeWhile (fun c => c ≠ '%') = s := by
  induction s with
  | nil => rfl
  | cons c rest ih =>
    rw [List.takeWhile_cons]
    have hc : c ≠ '%' := h c (List.mem_cons_self c rest)
    rw [if_pos (by simp [hc])]
    rw [ih (fun x hx => h x (List.mem_cons_of_mem c hx))]

theorem take2_ne_colons (c : Char) (cs : List Char) (hc : c ≠ ':') :
    (c :: cs).take 2 ≠ [':', ':'] := by
  intro hcon
  cases cs with
  | nil => simp [List.take] at hcon
  | cons c2 cs' =>
    simp only [List.take_succ_cons, List.take] at hcon
    exact hc (by injection hcon)

/-- The IPv6 print/parse round trip: Go's IPv6 parse inverts Go's IPv6
print on any 16-byte address. -/
theorem parseV6_print (bs : List Nat) (hlen : bs.length = 16)
    (hb : ∀ b ∈ bs, b < 256) :
    parseV6Go (ip6StringOfGroups (groups16 bs)) = some bs := by
  have hgs8 : (groups16 bs).length = 8 := by rw [groups16_length, hlen]
  have hglt := groups16_lt bs hb
  have hung : ungroup (groups16 bs) = bs :=
    ungroup_groups16 bs (by omega) hb
  have htw : (ip6StringOfGroups (groups16 bs)).takeWhile (fun c => c ≠ '%') =
      ip6StringOfGroups (groups16 bs) :=
    takeWhile_no_pct _ (ip6String_no_pct (groups16 bs))
  rw [parseV6Go]
  simp only [htw]
  rw [if_neg (by simp)]
  cases hbest : bestZeroRun (groups16 bs) with
  | none =>
    rw [ip6String_none _ hbest]
    have hne : groups16 bs ≠ [] := by
      intro hcon; rw [hcon] at hgs8; simp at hgs8
    rcases joinG_shape (groups16 bs) hne with ⟨c, cs, hj, hc, _, _⟩
    rw [hj, if_neg (take2_ne_colons c cs hc), ← hj]
    rw [loop_plain (groups16 bs) 8 0 none [] hne hglt (by omega) (by omega)]
    simp only [finishV6, hgs8]
    simp [hung]
  | some p =>
    rcases p with ⟨e0, len⟩
    rcases bestZeroRun_sound (groups16 bs) e0 len hbest with ⟨hlen2, hsum, hrun⟩
    have hdecomp := run_decomp (groups16 bs) e0 len hrun
    rw [ip6String_some _ e0 len hbest]
    have hpre_len : ((groups16 bs).take e0).length = e0 :=
      List.length_take_of_le (by omega)
    have hpost_len : ((groups16 bs).drop (e0 + len)).length = 8 - (e0 + len) := by
      rw [List.length_drop, hgs8]
    have hpre_lt : ∀ g ∈ (groups16 bs).take e0, g < 65536 :=
      fun g hg => hglt g (List.mem_of_mem_take hg)
    have hpost_lt : ∀ g ∈ (groups16 bs).drop (e0 + len), g < 65536 :=
      fun g hg => hglt g (List.mem_of_mem_drop hg)
    by_cases he0 : e0 = 0
    · subst he0
      have hpre : (groups16 bs).take 0 = [] := rfl
      rw [hpre, joinG_nil, List.nil_append]
      rw [if_pos (by rfl : List.take 2 (':' :: ':' ::
        joinG ((groups16 bs).drop (0 + len))) = [':', ':'])]
      simp only [List.drop_succ_cons, List.drop_zero]
      by_cases hpost : (groups16 bs).drop (0 + len) = []
      · rw [hpost, joinG_nil]
        rw [if_pos rfl]
        have hlen8 : len = 8 := by
          have := hpost_len
          rw [hpost] at this
          simp at this
          omega
        have : groups16 bs = List.replicate 8 0 := by
          rw [hdecomp, hpre, hpost, hlen8]
          simp
        rw [this] at hung
        rw [ungroup_replicate_zero] at hung
        rw [← hung]
      · rcases joinG_shape _ hpost with ⟨c, cs, hj, hc, _, _⟩
        have hjoin_ne : joinG ((groups16 bs).drop (0 + len)) ≠ [] := by
          rw [hj]; exact List.cons_ne_nil c cs
        rw [if_neg hjoin_ne]
        have hpost_ne : (groups16 bs).drop (0 + len) ≠ [] := hpost
        rw [loop_plain _ 8 0 (some 0) [] hpost_ne hpost_lt
          (by rw [hpost_len]; omega) (by rw [hpost_len]; omega)]
        simp only [finishV6, List.nil_append]
        rw [if_neg (by simp)]
        rw [if_pos (by rw [hpost_len]; omega)]
        simp only [List.take_nil, List.drop_zero, List.take_zero]
        have harith : 16 - (0 + 2 * ((groups16 bs).drop (0 + len)).length) = 2 * len := by
          rw [hpost_len]; omega
        rw [harith]
        refine congrArg some ?_
        have hbs : bs = List.replicate (2 * len) 0 ++ ungroup ((groups16 bs).drop (0 + len)) := by
          conv_lhs => rw [← hung]
          conv_lhs => rw [hdecomp]
          rw [hpre, List.nil_append, ungroup_append, ungroup_replicate_zero]
        simpa using hbs.symm
    · have hpre_ne : (groups16 bs).take e0 ≠ [] := by
        intro hcon
        rw [hcon] at hpre_len
        simp at hpre_len
        omega
      rcases joinG_shape _ hpre_ne with ⟨c, cs, hj, hc, _, _⟩
      have hshape : joinG ((groups16 bs).take e0) ++ ':' :: ':' ::
          joinG ((groups16 bs).drop (e0 + len)) =
          c :: (cs ++ ':' :: ':' :: joinG ((groups16 bs).drop (e0 + len))) := by
        rw [hj]; rfl
      rw [hshape, if_neg (take2_ne_colons c _ hc), ← hshape]
      rw [loop_ell _ _ 8 0 [] hpre_ne hpre_lt hpost_lt
        (by rw [hpre_len, hpost_len]; omega)
        (by rw [hpre_len, hpost_len]; omega)]
      simp only [finishV6]
      rw [if_neg (by simp)]
      rw [if_pos (by rw [hpre_len, hpost_len]; omega)]
      simp only [List.nil_append]
      have htake : (ungroup ((groups16 bs).take e0) ++
          ungroup ((groups16 bs).drop (e0 + len))).take (0 + 2 * ((groups16 bs).take e0).length)
          = ungroup ((groups16 bs).take e0) := by
        apply List.take_left'
        rw [ungroup_length, hpre_len]
        omega
      have hdrop : (ungroup ((groups16 bs).take e0) ++
          ungroup ((groups16 bs).drop (e0 + len))).drop (0 + 2 * ((groups16 bs).take e0).length)
          = ungroup ((groups16 bs).drop (e0 + len)) := by
        apply List.drop_left'
        rw [ungroup_length, hpre_len]
        omega
      rw [htake, hdrop]
      have harith : 16 - (0 + 2 * ((groups16 bs).take e0).length +
          2 * ((groups16 bs).drop (e0 + len)).length) = 2 * len := by
        rw [hpre_len, hpost_len]; omega
      rw [harith]
      refine congrArg some ?_
      have hbs : bs = ungroup ((groups16 bs).take e0) ++ List.replicate (2 * len) 0 ++
          ungroup ((groups16 bs).drop (e0 + len)) := by
        conv_lhs => rw [← hung]
        conv_lhs => rw [hdecomp]
        rw [ungroup_append, ungroup_append, ungroup_replicate_zero]
      conv_rhs => rw [hbs]

theorem digitCh_more : ∀ d : Fin 10, digitCh d.1 ≠ '%' ∧ digitCh d.1 ≠ '/' := by decide

theorem decChars_mem (a : Nat) : ∀ c ∈ decChars a, ∃ d, d < 10 ∧ c = digitCh d := by
  by_cases h0 : a = 0
  · subst h0
    intro c hc
    rw [decChars_zero, List.mem_singleton] at hc
    exact ⟨0, by omega, by rw [hc]; rfl⟩
  · rw [decChars, if_neg h0]
    intro c hc
    rcases List.mem_map.mp hc with ⟨d, hd, hch⟩
    exact ⟨d, digitsLE_lt 10 (by omega) a a d (List.mem_reverse.mp hd), hch.symm⟩

theorem dottedChars_mem (a b c d : Nat) :
    ∀ x ∈ dottedChars [a, b, c, d], x = '.' ∨ ∃ v, v < 10 ∧ x = digitCh v := by
  intro x hx
  rw [dottedChars_four] at hx
  have hfield : ∀ n : Nat, x ∈ decChars n → x = '.' ∨ ∃ v, v < 10 ∧ x = digitCh v :=
    fun n hn => Or.inr (decChars_mem n x hn)
  rcases List.mem_append.mp hx with h | h
  · exact hfield a h
  · rcases List.mem_cons.mp h with h' | h'
    · exact Or.inl h'
    · rcases List.mem_append.mp h' with h'' | h''
      · exact hfield b h''
      · rcases List.mem_cons.mp h'' with h3 | h3
        · exact Or.inl h3
        · rcases List.mem_append.mp h3 with h4 | h4
          · exact hfield c h4
          · rcases List.mem_cons.mp h4 with h5 | h5
            · exact Or.inl h5
            · exact hfield d h5

theorem decChars_shape (a : Nat) :
    ∃ c cs, decChars a = c :: cs ∧ c ≠ ':' ∧ (hexVal c).isSome = true := by
  rcases List.exists_cons_of_ne_nil (decChars_ne_nil a) with ⟨c, cs, hcc⟩
  have hmem : c ∈ decChars a := by rw [hcc]; exact List.mem_cons_self _ _
  rcases decChars_mem a c hmem with ⟨d, hd10, hch⟩
  subst hch
  exact ⟨digitCh d, cs, hcc, (digitCh_facts ⟨d, hd10⟩).2.2.2.1,
    by rw [(digitCh_facts ⟨d, hd10⟩).2.2.1]; rfl⟩

/-- Parsing the canonical IPv4-mapped spelling `::ffff:a.b.c.d` yields the
16-byte mapped address. -/
theorem parseV6_mapped (a b c d : Nat)
    (ha : a ≤ 255) (hb : b ≤ 255) (hc : c ≤ 255) (hd : d ≤ 255) :
    parseV6Go ([':', ':', 'f', 'f', 'f', 'f', ':'] ++ dottedChars [a, b, c, d]) =
      some (v4InV6Pre ++ [a, b, c, d]) := by
  have hnp : ∀ x ∈ [':', ':', 'f', 'f', 'f', 'f', ':'] ++ dottedChars [a, b, c, d],
      x ≠ '%' := by
    intro x hx
    rcases List.mem_append.mp hx with h | h
    · fin_cases h <;> decide
    · rcases dottedChars_mem a b c d x h with h' | ⟨v, hv, h'⟩
      · subst h'; decide
      · subst h'; exact (digitCh_more ⟨v, hv⟩).1
  have htw := takeWhile_no_pct _ hnp
  rw [parseV6Go]
  simp only [htw]
  rw [if_neg (by simp)]
  rw [if_pos (by rfl : List.take 2 ([':', ':', 'f', 'f', 'f', 'f', ':'] ++
    dottedChars [a, b, c, d]) = [':', ':'])]
  have hdrop2 : List.drop 2 ([':', ':', 'f', 'f', 'f', 'f', ':'] ++
      dottedChars [a, b, c, d]) = ['f', 'f', 'f', 'f'] ++ ':' :: dottedChars [a, b, c, d] := by
    rfl
  rw [hdrop2]
  rw [if_neg (by simp)]
  -- first loop iteration: the ffff group
  have hffff : hexChars 65535 = ['f', 'f', 'f', 'f'] := by decide
  have hgrab1 := grabHex_hexChars 65535 (by omega) (':' :: dottedChars [a, b, c, d]) rfl
  rw [hffff] at hgrab1
  have hoff1 : (['f', 'f', 'f', 'f'] : List Char).length ≠ 0 := by decide
  rcases decChars_shape a with ⟨c1, cs1, hdec, hc1, _⟩
  have hdshape : dottedChars [a, b, c, d] = c1 ::
      (cs1 ++ '.' :: (decChars b ++ '.' :: (decChars c ++ '.' :: decChars d))) := by
    rw [dottedChars_four, hdec]; rfl
  have hstep1 : loopCollect 8 (['f', 'f', 'f', 'f'] ++ ':' :: dottedChars [a, b, c, d])
      0 (some 0) [] =
      loopCollect 7 (dottedChars [a, b, c, d]) 2 (some 0) [255, 255] := by
    rw [loopCollect, if_neg (by omega : ¬(0 : Nat) ≥ 16), hgrab1]
    simp only [hoff1, List.head?_cons, hdshape]
    simp [hc1]
  rw [hstep1]
  -- second iteration: the embedded dotted quad
  have hdot : dottedChars [a, b, c, d] = decChars a ++
      ('.' :: (decChars b ++ '.' :: (decChars c ++ '.' :: decChars d))) := by
    rw [dottedChars_four]
  rcases grabHex_decChars a ha ('.' :: (decChars b ++ '.' :: (decChars c ++ '.' :: decChars d)))
    rfl with ⟨gval, hgrab2⟩
  have hoff2 : (decChars a).length ≠ 0 := by
    simpa using decChars_ne_nil a
  have hdrop12 : (v4InV6Pre ++ [a, b, c, d]).drop 12 = [a, b, c, d] :=
    List.drop_left' (by decide)
  have hstep2 : loopCollect 7 (dottedChars [a, b, c, d]) 2 (some 0) [255, 255] =
      some ([255, 255] ++ [a, b, c, d], some 0, 6, []) := by
    rw [loopCollect, if_neg (by omega : ¬(2 : Nat) ≥ 16)]
    rw [hdot, hgrab2]
    simp only [hoff2, List.head?_cons]
    rw [if_neg not_false, if_pos trivial, if_neg (by decide)]
    rw [← hdot, parseV4Go_dotted a b c d ha hb hc hd]
    simp [hdrop12]
  rw [hstep2]
  show finishV6 ([255, 255] ++ [a, b, c, d], some 0, 6, []) = some (v4InV6Pre ++ [a, b, c, d])
  simp [finishV6, v4InV6Pre]

theorem ip6String_chars (gs : List Nat) :
    ∀ c ∈ ip6StringOfGroups gs, c = ':' ∨ ∃ d, d < 16 ∧ c = hexCh d := by
  intro c hc
  have hjoin : ∀ (gs' : List Nat), c ∈ joinG gs' → c = ':' ∨ ∃ d, d < 16 ∧ c = hexCh d := by
    intro gs' hcg
    rcases joinG_mem gs' c hcg with h | ⟨g, _, hcg'⟩
    · exact Or.inl h
    · exact Or.inr (hexChars_mem g c hcg')
  cases hbest : bestZeroRun gs with
  | none =>
    rw [ip6String_none gs hbest] at hc
    exact hjoin gs hc
  | some p =>
    rw [ip6String_some gs p.1 p.2 (by rw [hbest])] at hc
    rcases List.mem_append.mp hc with h | h
    · exact hjoin _ h
    · rcases List.mem_cons.mp h with h' | h'
      · exact Or.inl h'
      · rcases List.mem_cons.mp h' with h'' | h''
        · exact Or.inl h''
        · exact hjoin _ h''

theorem ip6String_no_slash (gs : List Nat) : ∀ c ∈ ip6StringOfGroups gs, c ≠ '/' := by
  intro c hc
  rcases ip6String_chars gs c hc with h | ⟨d, hd, h⟩
  · subst h; decide
  · subst h; exact (hexCh_facts ⟨d, hd⟩).2.2.2.2

/-- Splitting at the first slash of `addr ++ '/' :: mask`. -/
theorem split_slash (addr mask : List Char) (h : ∀ c ∈ addr, c ≠ '/') :
    (addr ++ '/' :: mask).takeWhile (fun c => c ≠ '/') = addr ∧
    ((addr ++ '/' :: mask).dropWhile (fun c => c ≠ '/')).drop 1 = mask ∧
    (addr ++ '/' :: mask).all (fun c => c ≠ '/') = false := by
  induction addr with
  | nil =>
    refine ⟨?_, ?_, ?_⟩
    · simp [List.takeWhile_cons]
    · simp [List.dropWhile_cons]
    · simp
  | cons c cs ih =>
    have hc : c ≠ '/' := h c (List.mem_cons_self c cs)
    have ih' := ih (fun x hx => h x (List.mem_cons_of_mem c hx))
    refine ⟨?_, ?_, ?_⟩
    · show List.takeWhile _ (c :: (cs ++ '/' :: mask)) = c :: cs
      rw [List.takeWhile_cons, if_pos (by simp [hc])]
      rw [ih'.1]
    · show (List.dropWhile _ (c :: (cs ++ '/' :: mask))).drop 1 = mask
      rw [List.dropWhile_cons, if_pos (by simp [hc])]
      exact ih'.2.1
    · show List.all (c :: (cs ++ '/' :: mask)) _ = false
      rw [List.all_cons, ih'.2.2]
      simp

theorem dtoiLoop_ge :
    ∀ (s : List Char) (acc i : Nat), i ≤ (dtoiLoop s acc i).2.1 := by
  intro s
  induction s with
  | nil => intro acc i; exact le_refl i
  | cons c rest ih =>
    intro acc i
    rw [dtoiLoop]
    by_cases hd : isDigitCh c
    · rw [if_pos hd]
      by_cases hcap : acc * 10 + (c.toNat - 48) ≥ dtoiBig
      · rw [if_pos hcap]
      · rw [if_neg hcap]
        calc i ≤ i + 1 := by omega
          _ ≤ _ := ih _ (i + 1)
    · rw [if_neg hd]

theorem dtoiLoop_digits_taken :
    ∀ (s : List Char) (acc i : Nat),
      (dtoiLoop s acc i).2.2 = true →
      ∀ c ∈ s.take ((dtoiLoop s acc i).2.1 - i), isDigitCh c = true := by
  intro s
  induction s with
  | nil => intro acc i _ c hc; simp at hc
  | cons ch rest ih =>
    intro acc i hok c hc
    rw [dtoiLoop] at hok hc
    by_cases hd : isDigitCh ch
    · rw [if_pos hd] at hok hc
      by_cases hcap : acc * 10 + (ch.toNat - 48) ≥ dtoiBig
      · rw [if_pos hcap] at hok; exact absurd hok (by simp)
      · rw [if_neg hcap] at hok hc
        have hge := dtoiLoop_ge rest (acc * 10 + (ch.toNat - 48)) (i + 1)
        have hsub : (dtoiLoop rest (acc * 10 + (ch.toNat - 48)) (i + 1)).2.1 - i =
            ((dtoiLoop rest (acc * 10 + (ch.toNat - 48)) (i + 1)).2.1 - (i + 1)) + 1 := by
          omega
        rw [hsub, List.take_succ_cons] at hc
        rcases List.mem_cons.mp hc with h | h
        · subst h; exact hd
        · exact ih _ (i + 1) hok c h
    · rw [if_neg hd] at hok hc
      simp at hc

theorem v4FieldOk_eq (s : List Char) (n : Nat) (rest : List Char)
    (hf : v4FieldOk s = some (n, rest)) :
    ∃ i, dtoiLoop s 0 0 = (n, i, true) ∧ i ≠ 0 ∧ rest = s.drop i := by
  rw [v4FieldOk, dtoi] at hf
  rcases hdt : dtoiLoop s 0 0 with ⟨n0, i0, ok0⟩
  rw [hdt] at hf
  cases ok0 with
  | false => simp at hf
  | true =>
    by_cases hi0 : i0 = 0
    · subst hi0
      simp at hf
    · simp only [if_true, if_neg hi0] at hf
      by_cases hcond : (true && decide (n0 ≤ 255) &&
          !(decide (i0 > 1) && decide (s.head? = some '0'))) = true
      · rw [if_pos hcond] at hf
        have h1 : n0 = n ∧ s.drop i0 = rest := by
          have := hf
          simp only [Option.some.injEq, Prod.mk.injEq] at this
          exact this
        exact ⟨i0, by rw [h1.1], hi0, h1.2.symm⟩
      · rw [if_neg hcond] at hf
        exact absurd hf (by simp)

/-- `parseIPv4` fails on any hex-and-colon string containing a colon (every
textual IPv6 form). -/
theorem parseV4Go_no_colon (s : List Char)
    (hch : ∀ c ∈ s, c = ':' ∨ ∃ d, d < 16 ∧ c = hexCh d) (hcol : ':' ∈ s) :
    parseV4Go s = none := by
  rw [parseV4Go]
  cases hf : v4FieldOk s with
  | none => rfl
  | some p =>
    rcases p with ⟨n, rest⟩
    rcases v4FieldOk_eq s n rest hf with ⟨i, hdt, hi0, hk⟩
    cases hr : rest with
    | nil =>
      exfalso
      have hle : s.length ≤ i := by
        rw [hr] at hk
        exact List.drop_eq_nil_iff.mp hk.symm
      have hdig := dtoiLoop_digits_taken s 0 0 (by rw [hdt])
      rw [hdt] at hdig
      simp only [Nat.sub_zero] at hdig
      have htake : s.take i = s := List.take_of_length_le hle
      rw [htake] at hdig
      have := hdig ':' hcol
      exact absurd this (by decide)
    | cons c rest' =>
      have hcmem : c ∈ s := by
        have hmem : c ∈ rest := by rw [hr]; exact List.mem_cons_self c rest'
        rw [hk] at hmem
        exact List.mem_of_mem_drop hmem
      have hcne : c ≠ '.' := by
        rcases hch c hcmem with h | ⟨d, hd, h⟩
        · subst h; decide
        · subst h; exact (hexCh_facts ⟨d, hd⟩).2.2.1
      have hv : v4Rest 3 (c :: rest') [n] = none := by
        show v4Rest (2 + 1) (c :: rest') [n] = none
        rw [v4Rest, if_neg hcne]
      simp only [hv]

/-! ## Well-formedness of parser outputs: lengths and byte bounds -/

theorem hexVal_lt (c : Char) (v : Nat) (h : hexVal c = some v) : v < 16 := by
  rw [hexVal] at h
  by_cases h1 : (decide ('0' ≤ c) && decide (c ≤ '9')) = true
  · rw [if_pos h1] at h
    simp only [Option.some.injEq] at h
    simp only [Bool.and_eq_true, decide_eq_true_eq] at h1
    have : c.toNat ≤ 57 := h1.2
    omega
  · rw [if_neg h1] at h
    by_cases h2 : (decide ('a' ≤ c) && decide (c ≤ 'f')) = true
    · rw [if_pos h2] at h
      simp only [Option.some.injEq] at h
      simp only [Bool.and_eq_true, decide_eq_true_eq] at h2
      have ha : 97 ≤ c.toNat := h2.1
      have hb : c.toNat ≤ 102 := h2.2
      omega
    · rw [if_neg h2] at h
      by_cases h3 : (decide ('A' ≤ c) && decide (c ≤ 'F')) = true
      · rw [if_pos h3] at h
        simp only [Option.some.injEq] at h
        simp only [Bool.and_eq_true, decide_eq_true_eq] at h3
        have ha : 65 ≤ c.toNat := h3.1
        have hb : c.toNat ≤ 70 := h3.2
        omega
      · rw [if_neg h3] at h
        exact absurd h (by simp)

theorem grabHex_bound :
    ∀ (s : List Char) (acc off g off' : Nat) (r : List Char),
      grabHex s acc off = some (g, off', r) → acc < 16 ^ off → off ≤ 4 →
      g < 16 ^ off' ∧ off' ≤ 4 := by
  intro s
  induction s with
  | nil =>
    intro acc off g off' r h hacc hoff
    rw [grabHex] at h
    simp only [Option.some.injEq, Prod.mk.injEq] at h
    rw [← h.1, ← h.2.1]
    exact ⟨hacc, hoff⟩
  | cons c rest ih =>
    intro acc off g off' r h hacc hoff
    rw [grabHex] at h
    cases hv : hexVal c with
    | none =>
      simp only [hv, Option.some.injEq, Prod.mk.injEq] at h
      rw [← h.1, ← h.2.1]
      exact ⟨hacc, hoff⟩
    | some v =>
      simp only [hv] at h
      by_cases hge : off ≥ 4
      · rw [if_pos hge] at h; exact absurd h (by simp)
      · rw [if_neg hge] at h
        have hvlt := hexVal_lt c v hv
        have hacc' : acc * 16 + v < 16 ^ (off + 1) := by
          have : acc ≤ 16 ^ off - 1 := by omega
          have h16 : 16 ^ (off + 1) = 16 ^ off * 16 := by ring
          have hpos : 1 ≤ 16 ^ off := Nat.one_le_pow off 16 (by omega)
          calc acc * 16 + v ≤ (16 ^ off - 1) * 16 + 15 := by
                have := hvlt; omega
            _ < 16 ^ off * 16 := by omega
            _ = 16 ^ (off + 1) := h16.symm
        exact ih _ (off + 1) g off' r h hacc' (by omega)

theorem grabHex_lt (s : List Char) (g off' : Nat) (r : List Char)
    (h : grabHex s 0 0 = some (g, off', r)) : g < 65536 := by
  have hb := grabHex_bound s 0 0 g off' r h (by norm_num) (by omega)
  calc g < 16 ^ off' := hb.1
    _ ≤ 16 ^ 4 := Nat.pow_le_pow_right (by omega) hb.2
    _ = 65536 := by norm_num

theorem v4FieldOk_le (s : List Char) (n : Nat) (rest : List Char)
    (hf : v4FieldOk s = some (n, rest)) : n ≤ 255 := by
  rw [v4FieldOk] at hf
  rcases hdt : dtoi s with ⟨n0, i0, ok0⟩
  simp only [hdt] at hf
  by_cases hc : (ok0 && decide (n0 ≤ 255) &&
      !(decide (i0 > 1) && decide (s.head? = some '0'))) = true
  · rw [if_pos hc] at hf
    simp only [Option.some.injEq, Prod.mk.injEq] at hf
    simp only [Bool.and_eq_true, decide_eq_true_eq] at hc
    exact hf.1 ▸ hc.1.2
  · rw [if_neg hc] at hf
    exact absurd hf (by simp)

theorem v4Rest_bytes :
    ∀ (k : Nat) (s : List Char) (acc out : List Nat),
      v4Rest k s acc = some out →
      ∃ ns, out = acc.reverse ++ ns ∧ ns.length = k ∧ ∀ x ∈ ns, x ≤ 255 := by
  intro k
  induction k with
  | zero =>
    intro s acc out h
    simp only [v4Rest] at h
    by_cases hs : s = []
    · rw [if_pos hs] at h
      simp only [Option.some.injEq] at h
      exact ⟨[], by simp [h.symm], rfl, by simp⟩
    · rw [if_neg hs] at h; exact absurd h (by simp)
  | succ k ih =>
    intro s acc out h
    cases s with
    | nil => simp only [v4Rest] at h; exact absurd h (by simp)
    | cons c s' =>
      simp only [v4Rest] at h
      by_cases hc : c = '.'
      · rw [if_pos hc] at h
        cases hf : v4FieldOk s' with
        | none => rw [hf] at h; exact absurd h (by simp)
        | some p =>
          rcases p with ⟨n, s2⟩
          simp only [hf] at h
          rcases ih s2 (n :: acc) out h with ⟨ns, hout, hlen, hns⟩
          refine ⟨n :: ns, ?_, by simp [hlen], ?_⟩
          · rw [hout]; simp
          · intro x hx
            rcases List.mem_cons.mp hx with hx | hx
            · exact hx ▸ v4FieldOk_le s' n s2 hf
            · exact hns x hx
      · rw [if_neg hc] at h; exact absurd h (by simp)

theorem parseV4Go_bytes (s : List Char) (ip : GoIP) (h : parseV4Go s = some ip) :
    ∃ fs, ip = v4InV6Pre ++ fs ∧ fs.length = 4 ∧ ∀ x ∈ fs, x ≤ 255 := by
  rw [parseV4Go] at h
  cases hf : v4FieldOk s with
  | none => rw [hf] at h; exact absurd h (by simp)
  | some p =>
    rcases p with ⟨n, s1⟩
    simp only [hf] at h
    cases hr : v4Rest 3 s1 [n] with
    | none => simp only [hr] at h; exact absurd h (by simp)
    | some fields =>
      simp only [hr] at h
      simp only [Option.some.injEq] at h
      rcases v4Rest_bytes 3 s1 [n] fields hr with ⟨ns, hout, hlen, hns⟩
      refine ⟨n :: ns, ?_, by simp [hlen], ?_⟩
      · rw [← h, hout]; rfl
      · intro x hx
        rcases List.mem_cons.mp hx with hx | hx
        · exact hx ▸ v4FieldOk_le s n s1 hf
        · exact hns x hx

theorem loopCollect_wf :
    ∀ (fuel : Nat) (s : List Char) (i : Nat) (ell : Option Nat) (acc : List Nat)
      (acc2 : List Nat) (ell2 : Option Nat) (i2 : Nat) (left : List Char),
      loopCollect fuel s i ell acc = some (acc2, ell2, i2, left) →
      acc.length = i → (∀ b ∈ acc, b < 256) → i % 2 = 0 → i ≤ 16 →
      acc2.length = i2 ∧ (∀ b ∈ acc2, b < 256) ∧ i2 % 2 = 0 ∧ i2 ≤ 16 := by
  intro fuel
  induction fuel with
  | zero =>
    intro s i ell acc acc2 ell2 i2 left h hlen hlt hpar hle
    rw [loopCollect] at h
    simp only [Option.some.injEq, Prod.mk.injEq] at h
    obtain ⟨h1, _, h3, _⟩ := h
    subst h1; subst h3
    exact ⟨hlen, hlt, hpar, hle⟩
  | succ fuel ih =>
    intro s i ell acc acc2 ell2 i2 left h hlen hlt hpar hle
    rw [loopCollect] at h
    by_cases hge : i ≥ 16
    · rw [if_pos hge] at h
      simp only [Option.some.injEq, Prod.mk.injEq] at h
      obtain ⟨h1, _, h3, _⟩ := h
      subst h1; subst h3
      exact ⟨hlen, hlt, hpar, hle⟩
    · rw [if_neg hge] at h
      cases hg : grabHex s 0 0 with
      | none => simp only [hg] at h; exact absurd h (by simp)
      | some p =>
        rcases p with ⟨g, off, rest⟩
        simp only [hg] at h
        by_cases hoff : off = 0
        · rw [if_pos hoff] at h; exact absurd h (by simp)
        · rw [if_neg hoff] at h
          have hglt : g < 65536 := grabHex_lt s g off rest hg
          have hbyte : ∀ b ∈ acc ++ [g / 256, g % 256], b < 256 := by
            intro b hb
            rcases List.mem_append.mp hb with hb | hb
            · exact hlt b hb
            · rcases List.mem_cons.mp hb with hb | hb
              · subst hb; omega
              · rcases List.mem_cons.mp hb with hb | hb
                · subst hb; omega
                · simp at hb
          have hlen2 : (acc ++ [g / 256, g % 256]).length = i + 2 := by
            simp [hlen]
          have hi2 : i + 2 ≤ 16 := by omega
          by_cases hdot : rest.head? = some '.'
          · rw [if_pos hdot] at h
            by_cases hguard :
                ((decide (ell = none) && decide (i ≠ 12)) || decide (i + 4 > 16)) = true
            · rw [if_pos hguard] at h; exact absurd h (by simp)
            · rw [if_neg hguard] at h
              cases hp4 : parseV4Go s with
              | none => simp only [hp4] at h; exact absurd h (by simp)
              | some ip16 =>
                simp only [hp4, Option.some.injEq, Prod.mk.injEq] at h
                obtain ⟨h1, _, h3, _⟩ := h
                rcases parseV4Go_bytes s ip16 hp4 with ⟨fs, hip, hfslen, hfs⟩
                have hdropfs : ip16.drop 12 = fs := by
                  rw [hip]
                  have : v4InV6Pre.length = 12 := rfl
                  rw [← this, List.drop_left]
                have hi4 : i + 4 ≤ 16 := by
                  simp only [Bool.or_eq_true, decide_eq_true_eq, not_or] at hguard
                  omega
                subst h1; subst h3
                refine ⟨?_, ?_, by omega, by omega⟩
                · rw [hdropfs]
                  simp [hlen, hfslen]
                · intro b hb
                  rcases List.mem_append.mp hb with hb | hb
                  · exact hlt b hb
                  · rw [hdropfs] at hb
                    have := hfs b hb
                    omega
          · rw [if_neg hdot] at h
            cases rest with
            | nil =>
              simp only [Option.some.injEq, Prod.mk.injEq] at h
              obtain ⟨h1, _, h3, _⟩ := h
              subst h1; subst h3
              exact ⟨hlen2, hbyte, by omega, hi2⟩
            | cons c rest2 =>
              simp only [] at h
              by_cases hc : c = ':'
              · rw [if_pos hc] at h
                cases rest2 with
                | nil => exact absurd h (by simp)
                | cons c2 rest3 =>
                  simp only [] at h
                  by_cases hc2 : c2 = ':'
                  · rw [if_pos hc2] at h
                    by_cases hell : ell ≠ none
                    · rw [if_pos hell] at h; exact absurd h (by simp)
                    · rw [if_neg hell] at h
                      cases rest3 with
                      | nil =>
                        simp only [Option.some.injEq, Prod.mk.injEq] at h
                        obtain ⟨h1, _, h3, _⟩ := h
                        subst h1; subst h3
                        exact ⟨hlen2, hbyte, by omega, hi2⟩
                      | cons c3 rest4 =>
                        exact ih _ _ _ _ _ _ _ _ h hlen2 hbyte (by omega) hi2
                  · rw [if_neg hc2] at h
                    exact ih _ _ _ _ _ _ _ _ h hlen2 hbyte (by omega) hi2
              · rw [if_neg hc] at h; exact absurd h (by simp)

theorem finishV6_wf (acc : List Nat) (ell : Option Nat) (i : Nat) (left : List Char)
    (bs : List Nat) (h : finishV6 (acc, ell, i, left) = some bs)
    (hlen : acc.length = i) (hlt : ∀ b ∈ acc, b < 256) (hle : i ≤ 16) :
    bs.length = 16 ∧ ∀ b ∈ bs, b < 256 := by
  simp only [finishV6] at h
  by_cases hl : left ≠ []
  · rw [if_pos hl] at h; exact absurd h (by simp)
  · rw [if_neg hl] at h
    by_cases hi : i < 16
    · rw [if_pos hi] at h
      cases ell with
      | none => exact absurd h (by simp)
      | some e =>
        simp only [Option.some.injEq] at h
        subst h
        constructor
        · simp only [List.length_append, List.length_take, List.length_replicate,
            List.length_drop, hlen]
          omega
        · intro b hb
          rcases List.mem_append.mp hb with hb | hb
          · rcases List.mem_append.mp hb with hb | hb
            · exact hlt b (List.mem_of_mem_take hb)
            · have := List.eq_of_mem_replicate hb
              omega
          · exact hlt b (List.mem_of_mem_drop hb)
    · rw [if_neg hi] at h
      cases ell with
      | some e => exact absurd h (by simp)
      | none =>
        simp only [Option.some.injEq] at h
        subst h
        exact ⟨by omega, hlt⟩

theorem parseV6Go_wf (s : List Char) (bs : GoIP) (h : parseV6Go s = some bs) :
    bs.length = 16 ∧ ∀ b ∈ bs, b < 256 := by
  simp only [parseV6Go] at h
  by_cases h1 : ((s.takeWhile (fun c => c ≠ '%')).length ≠ s.length &&
      decide ((s.takeWhile (fun c => c ≠ '%')).length + 1 = s.length)) = true
  · rw [if_pos h1] at h; exact absurd h (by simp)
  · rw [if_neg h1] at h
    by_cases h2 : (s.takeWhile (fun c => c ≠ '%')).take 2 = [':', ':']
    · rw [if_pos h2] at h
      by_cases h3 : (s.takeWhile (fun c => c ≠ '%')).drop 2 = []
      · rw [if_pos h3] at h
        simp only [Option.some.injEq] at h
        subst h
        refine ⟨by simp, ?_⟩
        intro b hb
        have := List.eq_of_mem_replicate hb
        omega
      · rw [if_neg h3] at h
        cases hlc : loopCollect 8 ((s.takeWhile (fun c => c ≠ '%')).drop 2) 0 (some 0) [] with
        | none => rw [hlc] at h; exact absurd h (by simp)
        | some st =>
          rw [hlc] at h
          rcases st with ⟨acc2, ell2, i2, left⟩
          have hwf := loopCollect_wf 8 _ 0 (some 0) [] acc2 ell2 i2 left hlc rfl
            (by intro b hb; simp at hb) (by omega) (by omega)
          exact finishV6_wf acc2 ell2 i2 left bs h hwf.1 hwf.2.1 hwf.2.2.2
    · rw [if_neg h2] at h
      cases hlc : loopCollect 8 (s.takeWhile (fun c => c ≠ '%')) 0 none [] with
      | none => rw [hlc] at h; exact absurd h (by simp)
      | some st =>
        rw [hlc] at h
        rcases st with ⟨acc2, ell2, i2, left⟩
        have hwf := loopCollect_wf 8 _ 0 none [] acc2 ell2 i2 left hlc rfl
          (by intro b hb; simp at hb) (by omega) (by omega)
        exact finishV6_wf acc2 ell2 i2 left bs h hwf.1 hwf.2.1 hwf.2.2.2

/-! ## `net.ParseCIDR` on the three canonical key shapes -/

theorem toList_mk (l : List Char) : (String.mk l).toList = l := rfl

theorem parseV4Go_colon (s : List Char) : parseV4Go (':' :: s) = none := rfl

theorem goMaskIP_mapped4 (b4 m : List Nat) (hb4 : b4.length = 4) (hm : m.length = 4) :
    goMaskIP (v4InV6Pre ++ b4) m = some (maskBytes b4 m) := by
  rw [goMaskIP]
  have hlen16 : (v4InV6Pre ++ b4).length = 16 := by simp [v4InV6Pre, hb4]
  have h1 : (decide (m.length = 16) && decide ((v4InV6Pre ++ b4).length = 4) &&
      decide (m.take 12 = List.replicate 12 255)) = false := by
    simp [hm]
  have htk : (v4InV6Pre ++ b4).take 12 = v4InV6Pre :=
    List.take_left' (by rfl)
  have hdp : (v4InV6Pre ++ b4).drop 12 = b4 := by
    have : v4InV6Pre.length = 12 := rfl
    rw [← this, List.drop_left]
  simp only [h1, Bool.false_eq_true, if_false, hm, hlen16, htk, hdp]
  simp [maskBytes_length, hb4, hm]

theorem goMaskIP_v6 (ip m : List Nat) (hip : ip.length = 16) (hm : m.length = 16) :
    goMaskIP ip m = some (maskBytes ip m) := by
  rw [goMaskIP]
  have h1 : (decide (m.length = 16) && decide (ip.length = 4) &&
      decide (m.take 12 = List.replicate 12 255)) = false := by
    simp [hip]
  simp only [h1, Bool.false_eq_true, if_false]
  have h2 : (decide (m.length = 4) && decide (ip.length = 16) &&
      decide (ip.take 12 = v4InV6Pre)) = false := by
    simp [hm]
  simp only [h2, Bool.false_eq_true, if_false]
  rw [if_pos (by rw [hip, hm])]

theorem dtoi_dec (k : Nat) (hk : k ≤ 128) :
    dtoi (decChars k) = (k, (decChars k).length, true) := by
  have := dtoi_decChars k [] (by rw [dtoiBig]; omega) rfl
  rwa [List.append_nil] at this

theorem goParseCIDR_split (addr mask : List Char) (h : ∀ c ∈ addr, c ≠ '/') :
    goParseCIDR (String.mk (addr ++ '/' :: mask)) =
      (match cidrParseIP addr with
       | (none, _) => none
       | (some ip, iplen) => cidrFinish ip iplen mask) := by
  have hsp := split_slash addr mask h
  rw [goParseCIDR]
  simp only [toList_mk, hsp.1, hsp.2.1, hsp.2.2, Bool.false_eq_true, if_false]

theorem goParseCIDR_split_some (addr mask : List Char) (ip : GoIP) (iplen : Nat)
    (h : ∀ c ∈ addr, c ≠ '/') (hp : cidrParseIP addr = (some ip, iplen)) :
    goParseCIDR (String.mk (addr ++ '/' :: mask)) = cidrFinish ip iplen mask := by
  rw [goParseCIDR_split addr mask h, hp]

theorem cidrParseIP_v4 (addr : List Char) (ip : GoIP) (h : parseV4Go addr = some ip) :
    cidrParseIP addr = (some ip, 4) := by
  rw [cidrParseIP, h]

theorem cidrParseIP_v6 (addr : List Char) (r : Option GoIP) (h4 : parseV4Go addr = none)
    (h6 : parseV6Go addr = r) : cidrParseIP addr = (r, 16) := by
  rw [cidrParseIP, h4, h6]

theorem cidrFinish_dec (ip : GoIP) (iplen k : Nat) (hk : k ≤ 128) (hk2 : k ≤ 8 * iplen) :
    cidrFinish ip iplen (decChars k) =
      (match goMaskIP ip (goCIDRMask k (8 * iplen)) with
       | some masked => some (ip, ⟨masked, goCIDRMask k (8 * iplen)⟩)
       | none => none) := by
  rw [cidrFinish, dtoi_dec k hk]
  have hg1 : decide ((decChars k).length ≠ (decChars k).length) = false := by simp
  have hg2 : decide (k > 8 * iplen) = false := by simp; omega
  simp only [hg1, hg2, Bool.not_true, Bool.false_or, Bool.or_false, Bool.false_eq_true,
    if_false]

theorem goParseCIDR_dottedkey (a b c d k : Nat)
    (ha : a ≤ 255) (hb : b ≤ 255) (hc : c ≤ 255) (hd : d ≤ 255) (hk : k ≤ 32) :
    goParseCIDR (String.mk (dottedChars [a, b, c, d] ++ '/' :: decChars k)) =
      some (v4InV6Pre ++ [a, b, c, d],
        ⟨maskBytes [a, b, c, d] (goCIDRMask k 32), goCIDRMask k 32⟩) := by
  have hnd : ∀ x ∈ dottedChars [a, b, c, d], x ≠ '/' := by
    intro x hx
    rcases dottedChars_mem a b c d x hx with h' | ⟨v, hv, h'⟩
    · subst h'; decide
    · subst h'; exact (digitCh_more ⟨v, hv⟩).2
  rw [goParseCIDR_split_some _ (decChars k) _ 4 hnd
    (cidrParseIP_v4 _ _ (parseV4Go_dotted a b c d ha hb hc hd))]
  rw [cidrFinish_dec _ 4 k (by omega) (by omega)]
  have h84 : (8 : Nat) * 4 = 32 := rfl
  rw [h84]
  rw [goMaskIP_mapped4 [a, b, c, d] (goCIDRMask k 32) rfl (cidr32_length k hk)]

theorem ip6String_colon (gs : List Nat) (h2 : 2 ≤ gs.length) :
    ':' ∈ ip6StringOfGroups gs := by
  cases hbest : bestZeroRun gs with
  | none =>
    rw [ip6String_none gs hbest]
    match gs, h2 with
    | g :: g' :: rest, _ =>
      rw [joinG_cons]
      exact List.mem_append.mpr (Or.inr (List.mem_cons_self _ _))
  | some p =>
    rw [ip6String_some gs p.1 p.2 (by rw [hbest])]
    exact List.mem_append.mpr (Or.inr (List.mem_cons_self _ _))

theorem goParseCIDR_v6key (bs : List Nat) (k : Nat) (hlen : bs.length = 16)
    (hbs : ∀ b ∈ bs, b < 256) (hk : k ≤ 128) :
    goParseCIDR (String.mk (ip6StringOfGroups (groups16 bs) ++ '/' :: decChars k)) =
      some (bs, ⟨maskBytes bs (goCIDRMask k 128), goCIDRMask k 128⟩) := by
  have hnd : ∀ x ∈ ip6StringOfGroups (groups16 bs), x ≠ '/' :=
    ip6String_no_slash (groups16 bs)
  have hgs8 : (groups16 bs).length = 8 := by rw [groups16_length, hlen]
  have hp4 : parseV4Go (ip6StringOfGroups (groups16 bs)) = none :=
    parseV4Go_no_colon _ (ip6String_chars (groups16 bs))
      (ip6String_colon (groups16 bs) (by omega))
  rw [goParseCIDR_split_some _ (decChars k) _ 16 hnd
    (cidrParseIP_v6 _ _ hp4 (parseV6_print bs hlen hbs))]
  rw [cidrFinish_dec _ 16 k hk (by omega)]
  have h816 : (8 : Nat) * 16 = 128 := rfl
  rw [h816]
  rw [goMaskIP_v6 bs (goCIDRMask k 128) hlen (cidr128_length k hk)]

theorem goParseCIDR_mappedkey (a b c d k : Nat)
    (ha : a ≤ 255) (hb : b ≤ 255) (hc : c ≤ 255) (hd : d ≤ 255) (hk : k ≤ 128) :
    goParseCIDR (String.mk (([':', ':', 'f', 'f', 'f', 'f', ':'] ++
        dottedChars [a, b, c, d]) ++ '/' :: decChars k)) =
      some (v4InV6Pre ++ [a, b, c, d],
        ⟨maskBytes (v4InV6Pre ++ [a, b, c, d]) (goCIDRMask k 128), goCIDRMask k 128⟩) := by
  have hnd : ∀ x ∈ [':', ':', 'f', 'f', 'f', 'f', ':'] ++ dottedChars [a, b, c, d],
      x ≠ '/' := by
    intro x hx
    rcases List.mem_append.mp hx with h | h
    · fin_cases h <;> decide
    · rcases dottedChars_mem a b c d x h with h' | ⟨v, hv, h'⟩
      · subst h'; decide
      · subst h'; exact (digitCh_more ⟨v, hv⟩).2
  rw [goParseCIDR_split_some _ (decChars k) _ 16 hnd
    (cidrParseIP_v6 _ _ (parseV4Go_colon _) (parseV6_mapped a b c d ha hb hc hd))]
  rw [cidrFinish_dec _ 16 k hk (by omega)]
  have h816 : (8 : Nat) * 16 = 128 := rfl
  rw [h816]
  have hlen16 : (v4InV6Pre ++ [a, b, c, d]).length = 16 := by simp [v4InV6Pre]
  rw [goMaskIP_v6 (v4InV6Pre ++ [a, b, c, d]) (goCIDRMask k 128) hlen16
    (cidr128_length k hk)]

/-! ## Inversion of `net.ParseCIDR`: structure of any successfully parsed
network -/

theorem cidr32_bytes_lt_fin : ∀ n : Fin 33, ∀ x ∈ goCIDRMask n.1 32, x < 256 := by decide

theorem cidr32_bytes_lt (n : Nat) (h : n ≤ 32) : ∀ x ∈ goCIDRMask n 32, x < 256 :=
  cidr32_bytes_lt_fin ⟨n, by omega⟩

theorem cidrFinish_inv (ip : GoIP) (iplen : Nat) (mask : List Char) (ip0 : GoIP)
    (ipNet : IPNet) (h : cidrFinish ip iplen mask = some (ip0, ipNet)) :
    ∃ n, n ≤ 8 * iplen ∧ ipNet.mask = goCIDRMask n (8 * iplen) ∧
      goMaskIP ip (goCIDRMask n (8 * iplen)) = some ipNet.ip ∧ ip0 = ip := by
  rw [cidrFinish] at h
  rcases hdt : dtoi mask with ⟨n, i, ok⟩
  simp only [hdt] at h
  by_cases hguard : (!ok || decide (i ≠ mask.length) || decide (n > 8 * iplen)) = true
  · rw [if_pos hguard] at h; exact absurd h (by simp)
  · rw [if_neg hguard] at h
    have hn : n ≤ 8 * iplen := by
      simp only [Bool.or_eq_true, decide_eq_true_eq, not_or] at hguard
      omega
    cases hm : goMaskIP ip (goCIDRMask n (8 * iplen)) with
    | none => simp only [hm] at h; exact absurd h (by simp)
    | some masked =>
      simp only [hm, Option.some.injEq, Prod.mk.injEq] at h
      refine ⟨n, hn, ?_, ?_, h.1.symm⟩
      · rw [← h.2]
      · rw [← h.2, hm]

theorem goParseCIDR_wf (s : String) (ip0 : GoIP) (ipNet : IPNet)
    (h : goParseCIDR s = some (ip0, ipNet)) :
    ∃ n, ((ipNet.mask = goCIDRMask n 32 ∧ n ≤ 32 ∧ ipNet.ip.length = 4) ∨
          (ipNet.mask = goCIDRMask n 128 ∧ n ≤ 128 ∧ ipNet.ip.length = 16)) ∧
      (∀ b ∈ ipNet.ip, b < 256) ∧ maskBytes ipNet.ip ipNet.mask = ipNet.ip := by
  rw [goParseCIDR] at h
  by_cases hall : (s.toList.all (fun c => c ≠ '/')) = true
  · rw [if_pos hall] at h; exact absurd h (by simp)
  · rw [if_neg hall] at h
    rcases hcp : cidrParseIP (s.toList.takeWhile (fun c => c ≠ '/')) with ⟨ipq, iplen⟩
    simp only [hcp] at h
    cases ipq with
    | none => simp only [] at h; exact absurd h (by simp)
    | some ip =>
      simp only [] at h
      rw [cidrParseIP] at hcp
      cases hp4 : parseV4Go (s.toList.takeWhile (fun c => c ≠ '/')) with
      | some ip4 =>
        simp only [hp4, Prod.mk.injEq, Option.some.injEq] at hcp
        obtain ⟨hip4, hlen4⟩ := hcp
        rw [← hip4, ← hlen4] at h
        rcases cidrFinish_inv ip4 4 _ ip0 ipNet h with ⟨n, hn, hmask, hmip, _⟩
        have h84 : (8 : Nat) * 4 = 32 := rfl
        rw [h84] at hn hmask hmip
        rcases parseV4Go_bytes _ ip4 hp4 with ⟨fs, hipfs, hfslen, hfs⟩
        have hmm : goMaskIP ip4 (goCIDRMask n 32) = some (maskBytes fs (goCIDRMask n 32)) := by
          rw [hipfs]
          exact goMaskIP_mapped4 fs _ hfslen (cidr32_length n hn)
        rw [hmm] at hmip
        have hipeq : ipNet.ip = maskBytes fs (goCIDRMask n 32) := by
          have := hmip
          simp only [Option.some.injEq] at this
          exact this.symm
        refine ⟨n, Or.inl ⟨hmask, hn, ?_⟩, ?_, ?_⟩
        · rw [hipeq, maskBytes_length, hfslen, cidr32_length n hn]
          omega
        · intro b hb
          rw [hipeq] at hb
          exact maskBytes_lt fs _ (cidr32_bytes_lt n hn) b hb
        · rw [hipeq, hmask, maskBytes_idem]
      | none =>
        simp only [hp4] at hcp
        cases hp6 : parseV6Go (s.toList.takeWhile (fun c => c ≠ '/')) with
        | none => rw [hp6] at hcp; simp only [Prod.mk.injEq] at hcp; exact absurd hcp.1 (by simp)
        | some ip6 =>
          rw [hp6] at hcp
          simp only [Prod.mk.injEq, Option.some.injEq] at hcp
          obtain ⟨hip6, hlen6⟩ := hcp
          rw [← hip6, ← hlen6] at h
          rcases cidrFinish_inv ip6 16 _ ip0 ipNet h with ⟨n, hn, hmask, hmip, _⟩
          have h816 : (8 : Nat) * 16 = 128 := rfl
          rw [h816] at hn hmask hmip
          rcases parseV6Go_wf _ ip6 hp6 with ⟨hlen, hbs⟩
          have hmm : goMaskIP ip6 (goCIDRMask n 128) =
              some (maskBytes ip6 (goCIDRMask n 128)) :=
            goMaskIP_v6 ip6 _ hlen (cidr128_length n hn)
          rw [hmm] at hmip
          have hipeq : ipNet.ip = maskBytes ip6 (goCIDRMask n 128) := by
            have := hmip
            simp only [Option.some.injEq] at this
            exact this.symm
          refine ⟨n, Or.inr ⟨hmask, hn, ?_⟩, ?_, ?_⟩
          · rw [hipeq, maskBytes_length, hlen, cidr128_length n hn]
            omega
          · intro b hb
            rw [hipeq] at hb
            exact maskBytes_lt ip6 _ (cidr128_bytes_lt n hn) b hb
          · rw [hipeq, hmask, maskBytes_idem]

/-! ## Printer facts for canonical keys -/

theorem mk_append (a b : List Char) : String.mk a ++ String.mk b = String.mk (a ++ b) := rfl

theorem goIPString4 (ip : GoIP) (hlen : ip.length = 4) :
    goIPString ip = dottedChars ip := by
  rw [goIPString]
  rw [if_neg (by intro h; rw [h] at hlen; simp at hlen)]
  have h4 : goTo4 ip = some ip := by rw [goTo4, if_pos hlen]
  simp only [h4]

theorem goIPString16 (ip : GoIP) (h4 : goTo4 ip = none) (hlen : ip.length = 16) :
    goIPString ip = ip6StringOfGroups (groups16 ip) := by
  rw [goIPString]
  rw [if_neg (by intro h; rw [h] at hlen; simp at hlen)]
  simp only [h4]
  rw [if_pos (by simp [hlen])]

theorem simpleMaskLen_cidr128 (n : Nat) (hn : n ≤ 128) :
    simpleMaskLen (goCIDRMask n 128) = some n := by
  have hs := cidr128_size n hn
  rw [maskSize] at hs
  cases h : simpleMaskLen (goCIDRMask n 128) with
  | none =>
    rw [h] at hs
    have := congrArg Prod.snd hs
    simp at this
  | some k =>
    rw [h] at hs
    simp only [Prod.mk.injEq] at hs
    rw [hs.1]

theorem simpleMaskLen_cidr32 (n : Nat) (hn : n ≤ 32) :
    simpleMaskLen (goCIDRMask n 32) = some n := by
  have hs := cidr32_size n hn
  rw [maskSize] at hs
  cases h : simpleMaskLen (goCIDRMask n 32) with
  | none =>
    rw [h] at hs
    have := congrArg Prod.snd hs
    simp at this
  | some k =>
    rw [h] at hs
    simp only [Prod.mk.injEq] at hs
    rw [hs.1]

theorem mapped_plen_ge (b4 : List Nat) (n : Nat) (hb4 : b4.length = 4) (hn : n ≤ 128)
    (hmask : maskBytes (v4InV6Pre ++ b4) (goCIDRMask n 128) = v4InV6Pre ++ b4) :
    96 ≤ n := by
  by_contra hlt
  push_neg at hlt
  have hmlen : (goCIDRMask n 128).length = 16 := cidr128_length n hn
  have hilen : (v4InV6Pre ++ b4).length = 16 := by simp [v4InV6Pre, hb4]
  have h11m : 11 < (goCIDRMask n 128).length := by omega
  have h11i : 11 < (v4InV6Pre ++ b4).length := by omega
  have h11z : 11 < (maskBytes (v4InV6Pre ++ b4) (goCIDRMask n 128)).length := by
    rw [maskBytes_length]; omega
  have hpre11 : (v4InV6Pre ++ b4).get ⟨11, h11i⟩ = 255 := by
    rw [List.get_append 11 (by simp [v4InV6Pre])]
    rfl
  have hz : (maskBytes (v4InV6Pre ++ b4) (goCIDRMask n 128)).get ⟨11, h11z⟩ =
      (v4InV6Pre ++ b4).get ⟨11, h11i⟩ &&& (goCIDRMask n 128).get ⟨11, h11m⟩ := by
    simp [maskBytes, List.get_zipWith]
  have hm11lt : (goCIDRMask n 128).get ⟨11, h11m⟩ < 255 := by
    have := cidr128_byte11_lt n hlt
    rwa [List.getD_eq_get _ 0 h11m] at this
  have hand : (v4InV6Pre ++ b4).get ⟨11, h11i⟩ &&& (goCIDRMask n 128).get ⟨11, h11m⟩ =
      (v4InV6Pre ++ b4).get ⟨11, h11i⟩ := by
    have := congrArg (fun l => l.getD 11 0) hmask
    simp only [List.getD_eq_get _ 0 h11z, List.getD_eq_get _ 0 h11i] at this
    rw [← hz, this]
  rw [hpre11] at hand
  have hle : 255 &&& (goCIDRMask n 128).get ⟨11, h11m⟩ ≤
      (goCIDRMask n 128).get ⟨11, h11m⟩ := Nat.and_le_right
  omega

theorem goIPNetString_v6 (ipNet : IPNet) (h4 : goTo4 ipNet.ip = none)
    (hlen : ipNet.ip.length = 16) (n : Nat) (hn : n ≤ 128)
    (hmask : ipNet.mask = goCIDRMask n 128) :
    goIPNetString ipNet = ip6StringOfGroups (groups16 ipNet.ip) ++ '/' :: decChars n := by
  have hnn : networkNumberAndMask ipNet = some (ipNet.ip, ipNet.mask) := by
    rw [networkNumberAndMask]
    simp only [h4]
    rw [if_pos hlen]
    simp only []
    have hml : ipNet.mask.length = 16 := by rw [hmask]; exact cidr128_length n hn
    rw [if_neg (by omega), if_pos hml, if_neg (by omega)]
  rw [goIPNetString, hnn]
  simp only []
  rw [hmask, simpleMaskLen_cidr128 n hn]
  simp only []
  rw [goIPString16 ipNet.ip h4 hlen]

theorem goIPNetString_mapped (ipNet : IPNet) (b4 : List Nat) (hb4 : b4.length = 4)
    (hip : ipNet.ip = v4InV6Pre ++ b4) (n : Nat) (hn96 : 96 ≤ n) (hn : n ≤ 128)
    (hmask : ipNet.mask = goCIDRMask n 128) :
    goIPNetString ipNet = dottedChars b4 ++ '/' :: decChars (n - 96) := by
  have h4 : goTo4 ipNet.ip = some b4 := by
    rw [goTo4, hip]
    rw [if_neg (by simp [v4InV6Pre, hb4])]
    rw [if_pos (by simp [v4InV6Pre, hb4, List.take_left' (show v4InV6Pre.length = 12 from rfl)])]
    exact congrArg some (List.drop_left' (show v4InV6Pre.length = 12 from rfl))
  have hsplit : goCIDRMask n 128 = List.replicate 12 255 ++ goCIDRMask (n - 96) 32 := by
    have := cidr128_split (n - 96) (by omega)
    rwa [show n - 96 + 96 = n by omega] at this
  have hdrop : ipNet.mask.drop 12 = goCIDRMask (n - 96) 32 := by
    rw [hmask, hsplit]
    exact List.drop_left' (by simp)
  have hnn : networkNumberAndMask ipNet = some (b4, goCIDRMask (n - 96) 32) := by
    rw [networkNumberAndMask]
    simp only [h4]
    have hml : ipNet.mask.length = 16 := by rw [hmask]; exact cidr128_length n hn
    rw [if_neg (by omega), if_pos hml, if_pos hb4, hdrop]
  rw [goIPNetString, hnn]
  simp only []
  rw [simpleMaskLen_cidr32 (n - 96) (by omega)]
  simp only []
  rw [goIPString4 b4 hb4]

/-! ## The hook's key normalization, by mask family -/

theorem mapped_key_string (x y : List Char) :
    "::ffff:" ++ String.mk x ++ "/" ++ String.mk y =
      String.mk (([':', ':', 'f', 'f', 'f', 'f', ':'] ++ x) ++ '/' :: y) := by
  rw [show ("::ffff:" : String) = String.mk [':', ':', 'f', 'f', 'f', 'f', ':'] from rfl,
    show ("/" : String) = String.mk ['/'] from rfl, mk_append, mk_append, mk_append]
  rw [List.append_assoc]
  rfl

theorem keyToV6_32 (i : Nat) (k : String) (ip0 : GoIP) (ipNet : IPNet) (n : Nat)
    (hp : goParseCIDR k = some (ip0, ipNet)) (hmask : ipNet.mask = goCIDRMask n 32)
    (hn : n ≤ 32) (hlen : ipNet.ip.length = 4) :
    keyToV6 i k = .ok (String.mk (([':', ':', 'f', 'f', 'f', 'f', ':'] ++
      dottedChars ipNet.ip) ++ '/' :: decChars (n + 96))) := by
  rw [keyToV6, hp]
  simp only []
  rw [hmask, cidr32_size n hn]
  simp only []
  simp only [if_true]
  rw [goIPString4 ipNet.ip hlen]
  rw [mapped_key_string]
  have hcond : ¬ ((decide ((32 : Nat) ≠ 32) && decide ((32 : Nat) ≠ 128)) = true) := by decide
  rw [if_neg hcond]

theorem keyToV6_128v6 (i : Nat) (k : String) (ip0 : GoIP) (ipNet : IPNet) (n : Nat)
    (hp : goParseCIDR k = some (ip0, ipNet)) (hmask : ipNet.mask = goCIDRMask n 128)
    (hn : n ≤ 128) (hlen : ipNet.ip.length = 16) (h4 : goTo4 ipNet.ip = none) :
    keyToV6 i k =
      .ok (String.mk (ip6StringOfGroups (groups16 ipNet.ip) ++ '/' :: decChars n)) := by
  rw [keyToV6, hp]
  simp only []
  rw [hmask, cidr128_size n hn]
  simp only []
  have hc1 : ¬ ((decide ((128 : Nat) ≠ 32) && decide ((128 : Nat) ≠ 128)) = true) := by decide
  rw [if_neg hc1]
  have hc2 : ¬ ((128 : Nat) = 32) := by decide
  rw [if_neg hc2]
  rw [goIPNetString_v6 ipNet h4 hlen n hn hmask]

theorem keyToV6_128mapped (i : Nat) (k : String) (ip0 : GoIP) (ipNet : IPNet)
    (b4 : List Nat) (n : Nat)
    (hp : goParseCIDR k = some (ip0, ipNet)) (hmask : ipNet.mask = goCIDRMask n 128)
    (hn : n ≤ 128) (hip : ipNet.ip = v4InV6Pre ++ b4) (hb4 : b4.length = 4)
    (hn96 : 96 ≤ n) :
    keyToV6 i k = .ok (String.mk (dottedChars b4 ++ '/' :: decChars (n - 96))) := by
  rw [keyToV6, hp]
  simp only []
  rw [hmask, cidr128_size n hn]
  simp only []
  have hc1 : ¬ ((decide ((128 : Nat) ≠ 32) && decide ((128 : Nat) ≠ 128)) = true) := by decide
  rw [if_neg hc1]
  have hc2 : ¬ ((128 : Nat) = 32) := by decide
  rw [if_neg hc2]
  rw [goIPNetString_mapped ipNet b4 hb4 hip n hn96 hn hmask]

/-! ## Every canonical key reparses (claim C9) -/

theorem list_len4 {A : Type} (l : List A) (h : l.length = 4) :
    ∃ a b c d, l = [a, b, c, d] := by
  cases l with
  | nil => simp at h
  | cons a l1 => cases l1 with
    | nil => simp at h
    | cons b l2 => cases l2 with
      | nil => simp at h
      | cons c l3 => cases l3 with
        | nil => simp at h
        | cons d l4 => cases l4 with
          | nil => exact ⟨a, b, c, d, rfl⟩
          | cons e l5 =>
            simp only [List.length_cons, List.length_nil] at h
            omega

theorem goTo4_some16 (ip b4 : GoIP) (hlen : ip.length = 16) (h : goTo4 ip = some b4) :
    ip = v4InV6Pre ++ b4 ∧ b4.length = 4 := by
  rw [goTo4] at h
  rw [if_neg (by omega)] at h
  by_cases hc : (decide (ip.length = 16) && decide (ip.take 12 = v4InV6Pre)) = true
  · rw [if_pos hc] at h
    simp only [Option.some.injEq] at h
    simp only [Bool.and_eq_true, decide_eq_true_eq] at hc
    constructor
    · rw [← h, ← hc.2]
      exact (List.take_append_drop 12 ip).symm
    · rw [← h]
      simp [hlen]
  · rw [if_neg hc] at h
    exact absurd h (by simp)

theorem keyToV6_ok_parses (i : Nat) (k ck : String) (h : keyToV6 i k = .ok ck) :
    ∃ r, goParseCIDR ck = some r := by
  cases hp : goParseCIDR k with
  | none => rw [keyToV6, hp] at h; exact absurd h (by simp)
  | some p =>
    rcases p with ⟨ip0, ipNet⟩
    rcases goParseCIDR_wf k ip0 ipNet hp with ⟨n, hfam, hbytes, hmasked⟩
    rcases hfam with ⟨hmask, hn, hlen⟩ | ⟨hmask, hn, hlen⟩
    · rw [keyToV6_32 i k ip0 ipNet n hp hmask hn hlen] at h
      simp only [Except.ok.injEq] at h
      rcases list_len4 ipNet.ip hlen with ⟨a, b, c, d, hip4⟩
      subst h
      rw [hip4]
      exact ⟨_, goParseCIDR_mappedkey a b c d (n + 96)
        (by have := hbytes a (by rw [hip4]; simp); omega)
        (by have := hbytes b (by rw [hip4]; simp); omega)
        (by have := hbytes c (by rw [hip4]; simp); omega)
        (by have := hbytes d (by rw [hip4]; simp); omega)
        (by omega)⟩
    · cases h4 : goTo4 ipNet.ip with
      | none =>
        rw [keyToV6_128v6 i k ip0 ipNet n hp hmask hn hlen h4] at h
        simp only [Except.ok.injEq] at h
        subst h
        exact ⟨_, goParseCIDR_v6key ipNet.ip n hlen hbytes hn⟩
      | some b4 =>
        rcases goTo4_some16 ipNet.ip b4 hlen h4 with ⟨hip, hb4⟩
        have hn96 : 96 ≤ n := by
          apply mapped_plen_ge b4 n hb4 hn
          rw [← hip, ← hmask]
          exact hmasked
        rw [keyToV6_128mapped i k ip0 ipNet b4 n hp hmask hn hip hb4 hn96] at h
        simp only [Except.ok.injEq] at h
        rcases list_len4 b4 hb4 with ⟨a, b, c, d, hb4e⟩
        subst h
        rw [hb4e]
        have hmem : ∀ x ∈ b4, x < 256 := by
          intro x hx
          exact hbytes x (by rw [hip]; exact List.mem_append.mpr (Or.inr hx))
        exact ⟨_, goParseCIDR_dottedkey a b c d (n - 96)
          (by have := hmem a (by rw [hb4e]; simp); omega)
          (by have := hmem b (by rw [hb4e]; simp); omega)
          (by have := hmem c (by rw [hb4e]; simp); omega)
          (by have := hmem d (by rw [hb4e]; simp); omega)
          (by omega)⟩

theorem keyToV6_err_shape (i : Nat) (k : String) (e : DecodeError)
    (h : keyToV6 i k = .error e) : e = .invalidCIDR k ∨ e = .invalidNetmask i := by
  rw [keyToV6] at h
  cases hp : goParseCIDR k with
  | none =>
    rw [hp] at h
    simp only [Except.error.injEq] at h
    exact Or.inl h.symm
  | some p =>
    rcases p with ⟨ip0, ipNet⟩
    simp only [hp] at h
    rcases hms : maskSize ipNet.mask with ⟨ones, bits⟩
    simp only [hms] at h
    by_cases hb : (decide (bits ≠ 32) && decide (bits ≠ 128)) = true
    · rw [if_pos hb] at h
      simp only [Except.error.injEq] at h
      exact Or.inr h.symm
    · rw [if_neg hb] at h
      by_cases h32 : bits = 32
      · rw [if_pos h32] at h; exact absurd h (by simp)
      · rw [if_neg h32] at h; exact absurd h (by simp)

theorem upsert_mem {V : Type} (l : List (String × V)) (k : String) (v : V)
    (p : String × V) (hp : p ∈ upsert l k v) : p.1 = k ∨ ∃ q ∈ l, p.1 = q.1 := by
  rw [upsert] at hp
  by_cases he : (l.filter (fun e => e.1 = k)).isEmpty = true
  · rw [if_pos he] at hp
    rcases List.mem_append.mp hp with h | h
    · exact Or.inr ⟨p, h, rfl⟩
    · simp only [List.mem_singleton] at h
      rw [h]
      exact Or.inl rfl
  · rw [if_neg he] at hp
    rcases List.mem_map.mp hp with ⟨q, hq, hqe⟩
    by_cases hqk : q.1 = k
    · rw [if_pos hqk] at hqe
      rw [← hqe]
      exact Or.inl rfl
    · rw [if_neg hqk] at hqe
      rw [← hqe]
      exact Or.inr ⟨q, hq, rfl⟩

theorem buildOutput_keys :
    ∀ (entries : List (GoValue × GoValue)) (i : Nat) (out out' : List (String × GoValue)),
      buildOutput entries i out = .ok out' →
      (∀ p ∈ out, ∃ r, goParseCIDR p.1 = some r) →
      ∀ p ∈ out', ∃ r, goParseCIDR p.1 = some r := by
  intro entries
  induction entries with
  | nil =>
    intro i out out' h hout
    rw [buildOutput] at h
    simp only [Except.ok.injEq] at h
    rw [← h]
    exact hout
  | cons e rest ih =>
    intro i out out' h hout
    rcases e with ⟨kv, vv⟩
    cases kv with
    | str ks =>
      rw [buildOutput] at h
      cases hk : keyToV6 i ks with
      | error e0 => simp only [hk] at h; exact absurd h (by simp)
      | ok key =>
        simp only [hk] at h
        refine ih (i + 1) _ out' h ?_
        intro p hp
        rcases upsert_mem out key vv p hp with h1 | ⟨q, hq, hqe⟩
        · rw [h1]; exact keyToV6_ok_parses i ks key hk
        · rw [hqe]; exact hout q hq
    | boolean b =>
      have h2 : (Except.error (DecodeError.keyNotString i) :
          Except DecodeError (List (String × GoValue))) = .ok out' := h
      exact absurd h2 (by simp)
    | mapv m =>
      have h2 : (Except.error (DecodeError.keyNotString i) :
          Except DecodeError (List (String × GoValue))) = .ok out' := h
      exact absurd h2 (by simp)

theorem buildOutput_err_shape :
    ∀ (entries : List (GoValue × GoValue)) (i : Nat) (out : List (String × GoValue))
      (e : DecodeError), buildOutput entries i out = .error e →
      (∃ s, e = .invalidCIDR s) ∨ (∃ j, e = .invalidNetmask j) ∨ ∃ j, e = .keyNotString j := by
  intro entries
  induction entries with
  | nil =>
    intro i out e h
    rw [buildOutput] at h
    exact absurd h (by simp)
  | cons e0 rest ih =>
    intro i out e h
    rcases e0 with ⟨kv, vv⟩
    cases kv with
    | str ks =>
      rw [buildOutput] at h
      cases hk : keyToV6 i ks with
      | error e1 =>
        simp only [hk, Except.error.injEq] at h
        rcases keyToV6_err_shape i ks e1 hk with h1 | h1
        · exact Or.inl ⟨ks, by rw [← h, h1]⟩
        · exact Or.inr (Or.inl ⟨i, by rw [← h, h1]⟩)
      | ok key =>
        simp only [hk] at h
        exact ih (i + 1) _ e h
    | boolean b =>
      have h2 : (Except.error (DecodeError.keyNotString i) :
          Except DecodeError (List (String × GoValue))) = .error e := h
      simp only [Except.error.injEq] at h2
      exact Or.inr (Or.inr ⟨i, h2.symm⟩)
    | mapv m =>
      have h2 : (Except.error (DecodeError.keyNotString i) :
          Except DecodeError (List (String × GoValue))) = .error e := h
      simp only [Except.error.injEq] at h2
      exact Or.inr (Or.inr ⟨i, h2.symm⟩)

theorem subDecodeVals_err (l : List (String × GoValue)) (e : DecodeError)
    (h : subDecodeVals l = .error e) : e = .subDecode := by
  induction l generalizing e with
  | nil => rw [subDecodeVals] at h; exact absurd h (by simp)
  | cons p rest ih =>
    rcases p with ⟨k, v⟩
    cases v with
    | str s =>
      rw [subDecodeVals] at h
      cases hr : subDecodeVals rest with
      | ok l2 => simp only [hr] at h; exact absurd h (by simp)
      | error e2 =>
        simp only [hr, Except.error.injEq] at h
        rw [← h]
        exact ih e2 hr
    | boolean b =>
      have h2 : (Except.error DecodeError.subDecode :
          Except DecodeError (List (String × String))) = .error e := h
      simp only [Except.error.injEq] at h2
      exact h2.symm
    | mapv m =>
      have h2 : (Except.error DecodeError.subDecode :
          Except DecodeError (List (String × String))) = .error e := h
      simp only [Except.error.injEq] at h2
      exact h2.symm

theorem subDecodeVals_keys (l : List (String × GoValue)) (inter : List (String × String))
    (h : subDecodeVals l = .ok inter) : ∀ p ∈ inter, ∃ q ∈ l, p.1 = q.1 := by
  induction l generalizing inter with
  | nil =>
    rw [subDecodeVals] at h
    simp only [Except.ok.injEq] at h
    rw [← h]
    intro p hp
    simp at hp
  | cons pr rest ih =>
    rcases pr with ⟨k, v⟩
    cases v with
    | str s =>
      rw [subDecodeVals] at h
      cases hr : subDecodeVals rest with
      | error e => simp only [hr] at h; exact absurd h (by simp)
      | ok l2 =>
        simp only [hr, Except.ok.injEq] at h
        rw [← h]
        intro p hp
        rcases List.mem_cons.mp hp with hp | hp
        · exact ⟨(k, GoValue.str s), List.mem_cons_self _ _, by rw [hp]⟩
        · rcases ih l2 hr p hp with ⟨q, hq, hqe⟩
          exact ⟨q, List.mem_cons_of_mem _ hq, hqe⟩
    | boolean b =>
      have h2 : (Except.error DecodeError.subDecode :
          Except DecodeError (List (String × String))) = .ok inter := h
      exact absurd h2 (by simp)
    | mapv m =>
      have h2 : (Except.error DecodeError.subDecode :
          Except DecodeError (List (String × String))) = .ok inter := h
      exact absurd h2 (by simp)

theorem buildTrie_ok :
    ∀ (l : List (String × String)), (∀ p ∈ l, ∃ r, goParseCIDR p.1 = some r) →
      ∀ t, ∃ t', buildTrie l t = .ok t' := by
  intro l
  induction l with
  | nil => intro _ t; exact ⟨t, rfl⟩
  | cons p rest ih =>
    intro hk t
    rcases p with ⟨k, v⟩
    rcases hk (k, v) (List.mem_cons_self _ _) with ⟨r, hr⟩
    rcases r with ⟨ip0, ipNet⟩
    rcases ih (fun q hq => hk q (List.mem_cons_of_mem _ hq))
      (treeSet t (newIPv6Address (match goTo16 ipNet.ip with
        | some b => b
        | none => []) (maskSize ipNet.mask).1) v) with ⟨t2, ht2⟩
    refine ⟨t2, ?_⟩
    rw [buildTrie, hr]
    exact ht2

/-- C9: the "Should not happen" branch of the final trie-building pass is
unreachable — every key of the intermediate map (the canonical keys from the
normalization step and `"::/0"` from the single-value form) parses as a CIDR
again, so the hook never fails with a re-parse error. -/
theorem claim9_reparse_unreachable (from_ : GoValue) (flag : Bool) (k : String) :
    subnetMapUnmarshallerHook from_ flag ≠ .err (.reparse k) := by
  intro hcontra
  cases flag with
  | false => simp [subnetMapUnmarshallerHook] at hcontra
  | true =>
    cases from_ with
    | boolean b => simp [subnetMapUnmarshallerHook] at hcontra
    | str s =>
      have hs : subnetMapUnmarshallerHook (.str s) true =
          .ok ⟨some (treeSet [] (newIPv6Address (List.replicate 16 0) 0) s)⟩ := rfl
      rw [hs] at hcontra
      exact absurd hcontra (by simp)
    | mapv entries =>
      rw [subnetMapUnmarshallerHook] at hcontra
      simp only [Bool.not_true, Bool.false_eq_true, if_false] at hcontra
      cases hbo : buildOutput entries 0 [] with
      | error e =>
        simp only [hbo] at hcontra
        simp only [HookResult.err.injEq] at hcontra
        rcases buildOutput_err_shape entries 0 [] e hbo with ⟨s0, he⟩ | ⟨j, he⟩ | ⟨j, he⟩ <;>
          (rw [he] at hcontra; exact absurd hcontra (by simp))
      | ok out =>
        simp only [hbo] at hcontra
        cases hsd : subDecodeVals out with
        | error e =>
          simp only [hsd] at hcontra
          simp only [HookResult.err.injEq] at hcontra
          rw [subDecodeVals_err out e hsd] at hcontra
          exact absurd hcontra (by simp)
        | ok inter =>
          simp only [hsd] at hcontra
          have hkeys : ∀ p ∈ inter, ∃ r, goParseCIDR p.1 = some r := by
            intro p hp
            rcases subDecodeVals_keys out inter hsd p hp with ⟨q, hq, hqe⟩
            rw [hqe]
            exact buildOutput_keys entries 0 [] out hbo
              (by intro p0 hp0; simp at hp0) q hq
          rcases buildTrie_ok inter hkeys [] with ⟨t2, ht2⟩
          rw [ht2] at hcontra
          exact absurd hcontra (by simp)

theorem claim9_reparse_unreachable_witness :
    subnetMapUnmarshallerHook (.mapv [(.str "::ffff:10.0.0.0/104", .str "X")]) true ≠
      .err (.reparse "10.0.0.0/8") :=
  claim9_reparse_unreachable (.mapv [(.str "::ffff:10.0.0.0/104", .str "X")]) true
    "10.0.0.0/8"

/-! ## Well-formedness of decoded tries (claim C2) -/

theorem treeSet_mem {V : Type} (t : TreeV6 V) (a : IPv6Address) (v : V)
    (e : IPv6Address × V) (he : e ∈ treeSet t a v) : e ∈ t ∨ e.1 = nodePre a := by
  simp only [treeSet] at he
  by_cases hc : ((t.filter (fun e => e.1 = nodePre a)).isEmpty) = true
  · rw [if_pos hc] at he
    rcases List.mem_append.mp he with h | h
    · exact Or.inl h
    · simp only [List.mem_singleton] at h
      rw [h]
      exact Or.inr rfl
  · rw [if_neg hc] at he
    rcases List.mem_map.mp he with ⟨q, hq, hqe⟩
    by_cases hqk : q.1 = nodePre a
    · rw [if_pos hqk] at hqe
      rw [← hqe]
      exact Or.inr rfl
    · rw [if_neg hqk] at hqe
      rw [← hqe]
      exact Or.inl hq

theorem newIPv6Address_len (bytes : GoIP) (plen : Nat) :
    (newIPv6Address bytes plen).addr.length = 16 := by
  rw [newIPv6Address]
  simp

theorem nodePre_wf (bytes : GoIP) (plen : Nat) (hb : ∀ b ∈ bytes, b < 256)
    (hp : plen ≤ 128) : EntryWF (nodePre (newIPv6Address bytes plen)) := by
  refine ⟨?_, ?_, hp, ?_⟩
  · show (maskBytes (newIPv6Address bytes plen).addr _).length = 16
    have hpl : (newIPv6Address bytes plen).plen = plen := rfl
    rw [maskBytes_length, newIPv6Address_len, hpl, cidr128_length plen hp]
    omega
  · intro b hb2
    exact maskBytes_lt _ _ (cidr128_bytes_lt plen hp) b hb2
  · exact maskBytes_idem _ _

theorem goTo16_4 (ip : GoIP) (h : ip.length = 4) : goTo16 ip = some (v4InV6Pre ++ ip) := by
  rw [goTo16, if_pos h]

theorem goTo16_16 (ip : GoIP) (h : ip.length = 16) : goTo16 ip = some ip := by
  rw [goTo16, if_neg (by omega), if_pos h]

theorem v4InV6Pre_lt : ∀ b ∈ v4InV6Pre, b < 256 := by decide

theorem buildTrie_wf :
    ∀ (l : List (String × String)) (t t2 : TreeV6 String),
      buildTrie l t = .ok t2 → (∀ e ∈ t, EntryWF e.1) → ∀ e ∈ t2, EntryWF e.1 := by
  intro l
  induction l with
  | nil =>
    intro t t2 h hwf
    rw [buildTrie] at h
    simp only [Except.ok.injEq] at h
    rw [← h]
    exact hwf
  | cons p rest ih =>
    intro t t2 h hwf
    rcases p with ⟨k, v⟩
    rw [buildTrie] at h
    cases hp : goParseCIDR k with
    | none => simp only [hp] at h; exact absurd h (by simp)
    | some r =>
      rcases r with ⟨ip0, ipNet⟩
      simp only [hp] at h
      refine ih _ t2 h ?_
      intro e he
      rcases treeSet_mem _ _ _ e he with h1 | h1
      · exact hwf e h1
      · rw [h1]
        rcases goParseCIDR_wf k ip0 ipNet hp with ⟨n, hfam, hbytes, _⟩
        rcases hfam with ⟨hmask, hn, hlen⟩ | ⟨hmask, hn, hlen⟩
        · rw [goTo16_4 ipNet.ip hlen, hmask, cidr32_size n hn]
          apply nodePre_wf
          · intro b hb
            rcases List.mem_append.mp hb with hb | hb
            · exact v4InV6Pre_lt b hb
            · exact hbytes b hb
          · omega
        · rw [goTo16_16 ipNet.ip hlen, hmask, cidr128_size n hn]
          exact nodePre_wf ipNet.ip n hbytes hn

theorem treeSet_keys_nd {V : Type} (t : TreeV6 V) (a : IPv6Address) (v : V)
    (h : (t.map (fun e => e.1)).Nodup) :
    ((treeSet t a v).map (fun e => e.1)).Nodup := by
  simp only [treeSet]
  by_cases hc : ((t.filter (fun e => e.1 = nodePre a)).isEmpty) = true
  · rw [if_pos hc]
    have hfresh : ∀ e ∈ t, e.1 ≠ nodePre a := by
      intro e he heq
      have hmem : e ∈ t.filter (fun e => e.1 = nodePre a) :=
        List.mem_filter.mpr ⟨he, by simp [heq]⟩
      rw [List.isEmpty_iff] at hc
      rw [hc] at hmem
      simp at hmem
    rw [List.map_append]
    rw [List.nodup_append]
    refine ⟨h, by simp, ?_⟩
    intro x hx
    simp only [List.map_cons, List.map_nil, List.mem_singleton]
    rcases List.mem_map.mp hx with ⟨q, hq, hqe⟩
    rw [← hqe]
    exact hfresh q hq
  · rw [if_neg hc]
    have hkeys : (t.map (fun e => if e.1 = nodePre a then (nodePre a, v) else e)).map
        (fun e => e.1) = t.map (fun e => e.1) := by
      rw [List.map_map]
      apply List.map_congr_left
      intro e _
      by_cases hek : e.1 = nodePre a
      · simp [Function.comp, hek]
      · simp [Function.comp, hek]
    rw [hkeys]
    exact h

theorem buildTrie_nodup :
    ∀ (l : List (String × String)) (t t2 : TreeV6 String),
      buildTrie l t = .ok t2 → (t.map (fun e => e.1)).Nodup →
      (t2.map (fun e => e.1)).Nodup := by
  intro l
  induction l with
  | nil =>
    intro t t2 h hnd
    rw [buildTrie] at h
    simp only [Except.ok.injEq] at h
    rw [← h]
    exact hnd
  | cons p rest ih =>
    intro t t2 h hnd
    rcases p with ⟨k, v⟩
    rw [buildTrie] at h
    cases hp : goParseCIDR k with
    | none => simp only [hp] at h; exact absurd h (by simp)
    | some r =>
      rcases r with ⟨ip0, ipNet⟩
      simp only [hp] at h
      exact ih _ t2 h (treeSet_keys_nd t _ v hnd)

/-! ## Marshal-key round trip per stored entry (claim C2) -/

theorem slash_key_string (x y : List Char) :
    String.mk x ++ "/" ++ String.mk y = String.mk (x ++ '/' :: y) := by
  rw [show ("/" : String) = String.mk ['/'] from rfl, mk_append, mk_append, List.append_assoc]
  rfl

theorem entry_roundtrip (a : IPv6Address) (hwf : EntryWF a) :
    ∃ ck, (∀ i, keyToV6 i (addrGoString a) = .ok ck) ∧
      goParseCIDR ck = some (a.addr, ⟨a.addr, goCIDRMask a.plen 128⟩) := by
  obtain ⟨hlen, hbytes, hple, hmasked⟩ := hwf
  cases h4 : goTo4 a.addr with
  | some b4 =>
    rcases goTo4_some16 a.addr b4 hlen h4 with ⟨hip, hb4⟩
    have hn96 : 96 ≤ a.plen := by
      apply mapped_plen_ge b4 a.plen hb4 hple
      rw [← hip]
      exact hmasked
    have hsplit : goCIDRMask a.plen 128 =
        List.replicate 12 255 ++ goCIDRMask (a.plen - 96) 32 := by
      have := cidr128_split (a.plen - 96) (by omega)
      rwa [show a.plen - 96 + 96 = a.plen by omega] at this
    have hb4m : maskBytes b4 (goCIDRMask (a.plen - 96) 32) = b4 := by
      have hm := congrArg (List.drop 12) hmasked
      rw [maskBytes_drop] at hm
      rw [hip, hsplit] at hm
      rwa [List.drop_left' (show v4InV6Pre.length = 12 from rfl),
        List.drop_left' (show (List.replicate 12 (255 : Nat)).length = 12 by simp)] at hm
    have hmem : ∀ x ∈ b4, x < 256 := fun x hx =>
      hbytes x (by rw [hip]; exact List.mem_append.mpr (Or.inr hx))
    rcases list_len4 b4 hb4 with ⟨x1, x2, x3, x4, hb4e⟩
    subst hb4e
    have hx1 : x1 ≤ 255 := by have := hmem x1 (by simp); omega
    have hx2 : x2 ≤ 255 := by have := hmem x2 (by simp); omega
    have hx3 : x3 ≤ 255 := by have := hmem x3 (by simp); omega
    have hx4 : x4 ≤ 255 := by have := hmem x4 (by simp); omega
    have hkey : addrGoString a =
        String.mk (dottedChars [x1, x2, x3, x4] ++ '/' :: decChars (a.plen - 96)) := by
      rw [addrGoString]
      simp only [h4]
      exact slash_key_string _ _
    have hp1 : goParseCIDR (addrGoString a) =
        some (v4InV6Pre ++ [x1, x2, x3, x4],
          ⟨[x1, x2, x3, x4], goCIDRMask (a.plen - 96) 32⟩) := by
      rw [hkey]
      have := goParseCIDR_dottedkey x1 x2 x3 x4 (a.plen - 96) hx1 hx2 hx3 hx4 (by omega)
      rwa [hb4m] at this
    have hmk := fun i => keyToV6_32 i (addrGoString a) _ _ (a.plen - 96) hp1 rfl
      (by omega) (by simp)
    rw [show a.plen - 96 + 96 = a.plen by omega] at hmk
    refine ⟨_, hmk, ?_⟩
    have hp2 := goParseCIDR_mappedkey x1 x2 x3 x4 a.plen hx1 hx2 hx3 hx4 hple
    have hm2 : maskBytes (v4InV6Pre ++ [x1, x2, x3, x4]) (goCIDRMask a.plen 128) =
        v4InV6Pre ++ [x1, x2, x3, x4] := by
      rw [← hip]
      exact hmasked
    rw [hm2] at hp2
    rw [← hip] at hp2
    exact hp2
  | none =>
    have hkey : addrGoString a =
        String.mk (ip6StringOfGroups (groups16 a.addr) ++ '/' :: decChars a.plen) := by
      rw [addrGoString]
      simp only [h4]
      rw [goIPString16 a.addr h4 hlen]
      exact slash_key_string _ _
    have hp1 : goParseCIDR (addrGoString a) =
        some (a.addr, ⟨a.addr, goCIDRMask a.plen 128⟩) := by
      rw [hkey]
      have := goParseCIDR_v6key a.addr a.plen hlen hbytes hple
      rwa [hmasked] at this
    refine ⟨_, fun i => keyToV6_128v6 i _ _ _ a.plen hp1 rfl hple hlen h4, ?_⟩
    rw [← hkey]
    exact hp1

theorem canonKey_spec (a : IPv6Address) (hwf : EntryWF a) :
    (∀ i, keyToV6 i (addrGoString a) = .ok (canonKey a)) ∧
      goParseCIDR (canonKey a) = some (a.addr, ⟨a.addr, goCIDRMask a.plen 128⟩) := by
  rcases entry_roundtrip a hwf with ⟨ck, hk, hp⟩
  have hck : canonKey a = ck := by
    rw [canonKey, hk 0]
  rw [hck]
  exact ⟨hk, hp⟩

theorem cidr128_inj (p q : Nat) (hp : p ≤ 128) (hq : q ≤ 128)
    (h : goCIDRMask p 128 = goCIDRMask q 128) : p = q := by
  have h1 := cidr128_size p hp
  have h2 := cidr128_size q hq
  rw [h, h2] at h1
  simp only [Prod.mk.injEq] at h1
  exact h1.1.symm

theorem canonKey_inj (a a2 : IPv6Address) (ha : EntryWF a) (ha2 : EntryWF a2)
    (h : canonKey a = canonKey a2) : a = a2 := by
  have h1 := (canonKey_spec a ha).2
  have h2 := (canonKey_spec a2 ha2).2
  rw [h, h2] at h1
  simp only [Option.some.injEq, Prod.mk.injEq, IPNet.mk.injEq] at h1
  obtain ⟨haddr, _, hmaskeq⟩ := h1
  have hpl := cidr128_inj a.plen a2.plen ha.2.2.1 ha2.2.2.1 hmaskeq.symm
  cases a
  cases a2
  simp_all

/-! ## Rebuilding the trie from the canonical mapping, in order -/

theorem upsert_fresh {V : Type} (l : List (String × V)) (k : String) (v : V)
    (h : ∀ p ∈ l, p.1 ≠ k) : upsert l k v = l ++ [(k, v)] := by
  have hc : (l.filter (fun e => e.1 = k)).isEmpty = true := by
    rw [List.isEmpty_iff, List.filter_eq_nil_iff]
    intro p hp
    simp only [decide_eq_true_eq]
    exact h p hp
  rw [upsert, if_pos hc]

theorem treeSet_fresh {V : Type} (t : TreeV6 V) (a : IPv6Address) (v : V)
    (h : ∀ q ∈ t, q.1 ≠ nodePre a) : treeSet t a v = t ++ [(nodePre a, v)] := by
  have hc : (t.filter (fun e => e.1 = nodePre a)).isEmpty = true := by
    rw [List.isEmpty_iff, List.filter_eq_nil_iff]
    intro p hp
    simp only [decide_eq_true_eq]
    exact h p hp
  simp only [treeSet]
  rw [if_pos hc]

theorem subDecode_strs (l : List (String × String)) :
    subDecodeVals (l.map (fun p => (p.1, GoValue.str p.2))) = .ok l := by
  induction l with
  | nil => rfl
  | cons p rest ih =>
    rcases p with ⟨k, s⟩
    simp only [List.map_cons]
    rw [subDecodeVals, ih]

theorem buildOutput_canon :
    ∀ (l : List (IPv6Address × String)) (i : Nat) (out : List (String × GoValue)),
      (∀ e ∈ l, EntryWF e.1) →
      (∀ e ∈ l, ∀ p ∈ out, p.1 ≠ canonKey e.1) →
      (l.map (fun e => canonKey e.1)).Nodup →
      buildOutput (l.map (fun e => (GoValue.str (addrGoString e.1), GoValue.str e.2))) i out
        = .ok (out ++ l.map (fun e => (canonKey e.1, GoValue.str e.2))) := by
  intro l
  induction l with
  | nil =>
    intro i out _ _ _
    simp only [List.map_nil, List.append_nil]
    rfl
  | cons e rest ih =>
    intro i out hwf hfresh hnd
    have hwfe := hwf e (List.mem_cons_self _ _)
    rw [List.map_cons] at hnd
    rcases List.nodup_cons.mp hnd with ⟨hnotmem, hndrest⟩
    simp only [List.map_cons]
    rw [buildOutput]
    rw [(canonKey_spec e.1 hwfe).1 i]
    simp only []
    rw [upsert_fresh out (canonKey e.1) (GoValue.str e.2)
      (fun p hp => hfresh e (List.mem_cons_self _ _) p hp)]
    rw [ih (i + 1) (out ++ [(canonKey e.1, GoValue.str e.2)])
      (fun e2 he2 => hwf e2 (List.mem_cons_of_mem _ he2))
      ?_ hndrest]
    · rw [List.append_assoc, List.singleton_append]
    · intro e2 he2 p hp
      rcases List.mem_append.mp hp with hp | hp
      · exact hfresh e2 (List.mem_cons_of_mem _ he2) p hp
      · simp only [List.mem_singleton] at hp
        rw [hp]
        intro hceq
        have hceq2 : canonKey e.1 = canonKey e2.1 := hceq
        exact hnotmem (hceq2 ▸ List.mem_map.mpr ⟨e2, he2, rfl⟩)

theorem buildTrie_canon :
    ∀ (l : List (IPv6Address × String)) (t : TreeV6 String),
      (∀ e ∈ l, EntryWF e.1) →
      (∀ e ∈ l, ∀ q ∈ t, q.1 ≠ e.1) →
      (l.map (fun e => e.1)).Nodup →
      buildTrie (l.map (fun e => (canonKey e.1, e.2))) t = .ok (t ++ l) := by
  intro l
  induction l with
  | nil =>
    intro t _ _ _
    simp only [List.map_nil, List.append_nil]
    rfl
  | cons e rest ih =>
    intro t hwf hfresh hnd
    have hwfe := hwf e (List.mem_cons_self _ _)
    rw [List.map_cons] at hnd
    rcases List.nodup_cons.mp hnd with ⟨hnotmem, hndrest⟩
    simp only [List.map_cons]
    rw [buildTrie]
    rw [(canonKey_spec e.1 hwfe).2]
    simp only []
    rw [cidr128_size e.1.plen hwfe.2.2.1]
    rw [goTo16_16 e.1.addr hwfe.1]
    simp only []
    have hnew : newIPv6Address e.1.addr e.1.plen = e.1 := by
      rw [newIPv6Address]
      rw [List.take_left' hwfe.1]
    have hnode : nodePre e.1 = e.1 := by
      rw [nodePre, hwfe.2.2.2]
    rw [hnew]
    rw [treeSet_fresh t e.1 e.2
      (by rw [hnode]; exact fun q hq => hfresh e (List.mem_cons_self _ _) q hq)]
    rw [hnode]
    rw [ih (t ++ [(e.1, e.2)])
      (fun e2 he2 => hwf e2 (List.mem_cons_of_mem _ he2))
      ?_ hndrest]
    · rw [List.append_assoc, List.singleton_append]
    · intro e2 he2 q hq
      rcases List.mem_append.mp hq with hq | hq
      · exact hfresh e2 (List.mem_cons_of_mem _ he2) q hq
      · simp only [List.mem_singleton] at hq
        rw [hq]
        intro hceq
        have hceq2 : e.1 = e2.1 := hceq
        exact hnotmem (hceq2 ▸ List.mem_map.mpr ⟨e2, he2, rfl⟩)

theorem hook_ok_wf (from_ : GoValue) (sm : SubnetMap String)
    (h : subnetMapUnmarshallerHook from_ true = .ok sm) :
    ∃ t, sm = ⟨some t⟩ ∧ (∀ e ∈ t, EntryWF e.1) ∧ (t.map (fun e => e.1)).Nodup := by
  cases from_ with
  | boolean b =>
    have h2 : HookResult.declined (.boolean b) = .ok sm := h
    exact absurd h2 (by simp)
  | str s =>
    have hs : subnetMapUnmarshallerHook (.str s) true =
        .ok ⟨some [(⟨List.replicate 16 0, 0⟩, s)]⟩ := rfl
    rw [hs] at h
    simp only [HookResult.ok.injEq] at h
    refine ⟨[(⟨List.replicate 16 0, 0⟩, s)], h.symm, ?_, by simp⟩
    intro e he
    simp only [List.mem_singleton] at he
    rw [he]
    show EntryWF ⟨List.replicate 16 0, 0⟩
    refine ⟨by simp, ?_, by decide, by decide⟩
    intro b hb
    have := List.eq_of_mem_replicate hb
    omega
  | mapv entries =>
    rw [subnetMapUnmarshallerHook] at h
    simp only [Bool.not_true, Bool.false_eq_true, if_false] at h
    cases hbo : buildOutput entries 0 [] with
    | error e => simp only [hbo] at h; exact absurd h (by simp)
    | ok out =>
      simp only [hbo] at h
      cases hsd : subDecodeVals out with
      | error e => simp only [hsd] at h; exact absurd h (by simp)
      | ok inter =>
        simp only [hsd] at h
        cases hbt : buildTrie inter [] with
        | error e => simp only [hbt] at h; exact absurd h (by simp)
        | ok t =>
          simp only [hbt, HookResult.ok.injEq] at h
          exact ⟨t, h.symm, buildTrie_wf inter [] t hbt (by intro e he; simp at he),
            buildTrie_nodup inter [] t hbt (by simp)⟩

/-- C2: re-decoding the canonical mapping of any successfully decoded table
succeeds and reproduces a table with identical `Lookup` results for every
address — in fact the very same trie. -/
theorem claim2_roundtrip (from_ : GoValue) (sm : SubnetMap String)
    (h : subnetMapUnmarshallerHook from_ true = .ok sm) :
    ∃ sm2, subnetMapUnmarshallerHook
        (.mapv ((SubnetMap.marshalYAML sm).map
          (fun p => (GoValue.str p.1, GoValue.str p.2)))) true = .ok sm2 ∧
      ∀ q : GoIP, sm2.Lookup q = sm.Lookup q := by
  rcases hook_ok_wf from_ sm h with ⟨t, hsm, hwf, hnd⟩
  subst hsm
  refine ⟨⟨some t⟩, ?_, fun q => rfl⟩
  have hmar : SubnetMap.marshalYAML ⟨some t⟩ =
      t.map (fun e => (addrGoString e.1, e.2)) := rfl
  rw [hmar]
  have hmm : (t.map (fun e => (addrGoString e.1, e.2))).map
      (fun p => (GoValue.str p.1, GoValue.str p.2)) =
      t.map (fun e => (GoValue.str (addrGoString e.1), GoValue.str e.2)) := by
    rw [List.map_map]
    rfl
  rw [hmm]
  rw [subnetMapUnmarshallerHook]
  simp only [Bool.not_true, Bool.false_eq_true, if_false]
  have hckname : (t.map (fun e => canonKey e.1)).Nodup := by
    have hcomp : t.map (fun e => canonKey e.1) = (t.map (fun e => e.1)).map canonKey := by
      rw [List.map_map]
      rfl
    rw [hcomp]
    refine List.Nodup.map_on ?_ hnd
    intro x hx y hy hxy
    rcases List.mem_map.mp hx with ⟨ex, hex, hexe⟩
    rcases List.mem_map.mp hy with ⟨ey, hey, heye⟩
    subst hexe
    subst heye
    exact canonKey_inj ex.1 ey.1 (hwf ex hex) (hwf ey hey) hxy
  have hbo := buildOutput_canon t 0 [] hwf (by intro e _ p hp; simp at hp) hckname
  simp only [hbo, List.nil_append]
  have hmm2 : t.map (fun e => (canonKey e.1, GoValue.str e.2)) =
      (t.map (fun e => (canonKey e.1, e.2))).map (fun p => (p.1, GoValue.str p.2)) := by
    rw [List.map_map]
    rfl
  simp only [hmm2, subDecode_strs]
  have hbt := buildTrie_canon t [] hwf (by intro e _ q hq; simp at hq) hnd
  simp only [hbt, List.nil_append]

theorem claim2_roundtrip_witness :
    ∃ sm2, subnetMapUnmarshallerHook
        (.mapv ((SubnetMap.marshalYAML
          (⟨some [(⟨[0, 0, 0, 0, 0, 0, 0, 0, 0, 0, 255, 255, 203, 0, 113, 0], 120⟩, "A")]⟩ :
            SubnetMap String)).map
          (fun p => (GoValue.str p.1, GoValue.str p.2)))) true = .ok sm2 ∧
      ∀ q : GoIP, sm2.Lookup q =
        (⟨some [(⟨[0, 0, 0, 0, 0, 0, 0, 0, 0, 0, 255, 255, 203, 0, 113, 0], 120⟩, "A")]⟩ :
          SubnetMap String).Lookup q :=
  claim2_roundtrip (.mapv [(.str "203.0.113.0/24", .str "A")]) _ (by rfl)

/-! ## Claim C3: the actual key-normalization behaviour -/

/-- C3 (counterexample to the original claim): a key with mask bit-length
128 is not kept in its IPv6 CIDR form — `::ffff:10.0.0.0/104` is rewritten
by `ipNet.String()` to `10.0.0.0/8` — and the table decoded from that
mapped-IPv6 key does not give the same lookups as the table decoded from
the IPv4-subnet key `10.0.0.0/8` (they diverge at `::1`); moreover a
dotted-decimal mask never reaches the normalization step at all, because
`net.ParseCIDR` rejects it. -/
theorem claim3_counterexample :
    keyToV6 0 "::ffff:10.0.0.0/104" = .ok "10.0.0.0/8" ∧
    keyToV6 0 "192.0.2.0/255.255.255.0" =
      .error (.invalidCIDR "192.0.2.0/255.255.255.0") ∧
    (∃ smA smB : SubnetMap String,
      subnetMapUnmarshallerHook (.mapv [(.str "::ffff:10.0.0.0/104", .str "X")]) true =
        .ok smA ∧
      subnetMapUnmarshallerHook (.mapv [(.str "10.0.0.0/8", .str "X")]) true = .ok smB ∧
      smA.Lookup [0, 0, 0, 0, 0, 0, 0, 0, 0, 0, 0, 0, 0, 0, 0, 1] = ("X", true) ∧
      smB.Lookup [0, 0, 0, 0, 0, 0, 0, 0, 0, 0, 0, 0, 0, 0, 0, 1] = ("", false)) := by
  refine ⟨rfl, rfl, ⟨_, _, rfl, rfl, rfl, rfl⟩⟩

/-- C3 (amended): during decode of a mapping, a key whose parsed mask has
bit-length 32 is re-expressed as `::ffff:<dotted network>/<ones+96>`; a key
whose mask has bit-length 128 is re-expressed as `ipNet.String()`, which
keeps a non-IPv4-mapped network in IPv6 CIDR form `<rfc5952>/<ones>` but
re-expresses an IPv4-mapped network (whose prefix length is then
necessarily at least 96) in dotted IPv4 form with the prefix length reduced
by 96. -/
theorem claim3_keys_normalized (i : Nat) (k : String) (ip0 : GoIP) (ipNet : IPNet)
    (ones bits : Nat) (hp : goParseCIDR k = some (ip0, ipNet))
    (hms : maskSize ipNet.mask = (ones, bits)) :
    (bits = 32 →
      keyToV6 i k = .ok (String.mk (([':', ':', 'f', 'f', 'f', 'f', ':'] ++
        dottedChars ipNet.ip) ++ '/' :: decChars (ones + 96)))) ∧
    (bits = 128 → goTo4 ipNet.ip = none →
      keyToV6 i k = .ok (String.mk (ip6StringOfGroups (groups16 ipNet.ip) ++ '/' ::
        decChars ones))) ∧
    (bits = 128 → ∀ b4, goTo4 ipNet.ip = some b4 → 96 ≤ ones ∧
      keyToV6 i k = .ok (String.mk (dottedChars b4 ++ '/' :: decChars (ones - 96)))) := by
  rcases goParseCIDR_wf k ip0 ipNet hp with ⟨n, hfam, hbytes, hmasked⟩
  rcases hfam with ⟨hmask, hn, hlen⟩ | ⟨hmask, hn, hlen⟩
  · have hms2 : maskSize ipNet.mask = (n, 32) := by rw [hmask]; exact cidr32_size n hn
    rw [hms] at hms2
    simp only [Prod.mk.injEq] at hms2
    obtain ⟨ho, hb⟩ := hms2
    refine ⟨?_, ?_, ?_⟩
    · intro _
      rw [ho]
      exact keyToV6_32 i k ip0 ipNet n hp hmask hn hlen
    · intro h128
      omega
    · intro h128
      omega
  · have hms2 : maskSize ipNet.mask = (n, 128) := by rw [hmask]; exact cidr128_size n hn
    rw [hms] at hms2
    simp only [Prod.mk.injEq] at hms2
    obtain ⟨ho, hb⟩ := hms2
    refine ⟨?_, ?_, ?_⟩
    · intro h32
      omega
    · intro _ h4
      rw [ho]
      exact keyToV6_128v6 i k ip0 ipNet n hp hmask hn hlen h4
    · intro _ b4 h4
      rcases goTo4_some16 ipNet.ip b4 hlen h4 with ⟨hip, hb4⟩
      have hn96 : 96 ≤ n := by
        apply mapped_plen_ge b4 n hb4 hn
        rw [← hip, ← hmask]
        exact hmasked
      rw [ho]
      exact ⟨hn96, keyToV6_128mapped i k ip0 ipNet b4 n hp hmask hn hip hb4 hn96⟩

theorem claim3_keys_normalized_witness :
    ((32 : Nat) = 32 →
      keyToV6 0 "10.0.0.0/8" = .ok (String.mk (([':', ':', 'f', 'f', 'f', 'f', ':'] ++
        dottedChars ([10, 0, 0, 0] : GoIP)) ++ '/' :: decChars (8 + 96)))) ∧
    ((32 : Nat) = 128 → goTo4 ([10, 0, 0, 0] : GoIP) = none →
      keyToV6 0 "10.0.0.0/8" = .ok (String.mk (ip6StringOfGroups
        (groups16 ([10, 0, 0, 0] : GoIP)) ++ '/' :: decChars 8))) ∧
    ((32 : Nat) = 128 → ∀ b4, goTo4 ([10, 0, 0, 0] : GoIP) = some b4 → 96 ≤ 8 ∧
      keyToV6 0 "10.0.0.0/8" = .ok (String.mk (dottedChars b4 ++ '/' ::
        decChars (8 - 96)))) :=
  claim3_keys_normalized 0 "10.0.0.0/8" (v4InV6Pre ++ [10, 0, 0, 0])
    ⟨[10, 0, 0, 0], goCIDRMask 8 32⟩ 8 32 (by rfl) (by rfl)

end Akvorado
